import Mathlib

/-!
Verification of the quiz-markdown → D2L CSV converter (`gen_quiz_csv.py`).

The parsing core is embedded shallowly: Python strings become `List Char`,
lines become `List Char`, a document becomes a `List (List Char)` obtained by
splitting the raw text on newline characters, mirroring `content.split("\n")`.
The three core functions `parse_question`, `parse_quiz_file` (from the
newline-split onwards) and `format_question_text` are translated
definition-by-definition from the source.
-/

namespace Quiz

/-- Line of text, as a list of characters (Python `str`). -/
abbrev Line := List Char

/-- Characters treated as whitespace by Python `str.strip()` (ASCII subset). -/
def isPySpace (c : Char) : Bool :=
  c = ' ' || c = '\t' || c = '\n' || c = '\r' || c = '\x0b' || c = '\x0c'

/-- Drop leading Python whitespace (`\s*` / left part of `str.strip()`). -/
def dropSpaces (cs : List Char) : List Char := cs.dropWhile isPySpace

/-- Python `str.strip()`: drop whitespace from both ends. -/
def pyStrip (cs : List Char) : List Char :=
  ((cs.dropWhile isPySpace).reverse.dropWhile isPySpace).reverse

/-- Python substring containment `needle in haystack`. -/
def hasSub (nd : List Char) : List Char → Bool
  | [] => nd.isPrefixOf []
  | c :: rest => nd.isPrefixOf (c :: rest) || hasSub nd rest

/-- Drop a literal prefix, returning the remainder on success. -/
def stripPre : List Char → List Char → Option (List Char)
  | [], s => some s
  | _ :: _, [] => none
  | p :: ps, c :: cs => if c = p then stripPre ps cs else none

/-- Python `text.split("\n")`: split at every newline, keeping empty pieces. -/
def splitNl : List Char → List (List Char)
  | [] => [[]]
  | c :: rest =>
    if c = '\n' then [] :: splitNl rest
    else
      match splitNl rest with
      | [] => [[c]]
      | p :: ps => (c :: p) :: ps

/-- Python `"\n".join(lines)`. -/
def joinNl : List (List Char) → List Char
  | [] => []
  | [l] => l
  | l :: ls => l ++ '\n' :: joinNl ls

/-- Count occurrences of a character. -/
def countChar (x : Char) (cs : List Char) : Nat :=
  cs.countP (fun c => c = x)

/-- The backtick character (written via an escape). -/
def tickChar : Char := ("\x60".toList).headD 'x'

/-- The `>` character opening a blockquote line. -/
def gtChar : Char := '>'

/-- Literal `"``` "` fence marker (three backticks). -/
def tick3 : List Char := [tickChar, tickChar, tickChar]

def hyphen3S : String := "---"

/-- Literal `---` horizontal-rule line. -/
def hyphen3 : List Char := hyphen3S.toList

/-- Python `\w` word character (ASCII model of the regex class). -/
def wordChar (c : Char) : Bool := c.isAlpha || c.isDigit || c = '_'

/-- Uppercase option letter `[A-F]` of the source regexes. -/
def letterAF (c : Char) : Bool := 'A' ≤ c && c ≤ 'F'

/-- Character terminating a correct-answer letter: `(?:\.|,|\s)` alternatives. -/
def termAfter (c : Char) : Bool := c = '.' || c = ',' || isPySpace c

/-- Whether the scan position is followed by a terminator or the end of text
(the `(?:\.|,|\s|$)` tail of the letter regex). -/
def termOrEnd : List Char → Bool
  | [] => true
  | t :: _ => termAfter t

/-- One answer option: `{"letter": ..., "text": ..., "correct": ...}`. -/
structure Opt where
  letter : Char
  text : List Char
  correct : Bool
deriving DecidableEq

/-- One parsed question, the dict returned by `parse_question`. -/
structure Question where
  num : Nat
  qtype : List Char
  title : List Char
  text : List Char
  options : List Opt
  correct_explanation : List Char
  short_answer : List Char
deriving DecidableEq

def saS : String := "SA"
def msS : String := "MS"
def mcS : String := "MC"

/-- Type code `"SA"` (short answer). -/
def saStr : List Char := saS.toList

/-- Type code `"MS"` (multi-select). -/
def msStr : List Char := msS.toList

/-- Type code `"MC"` (multiple choice). -/
def mcStr : List Char := mcS.toList

/-- Mutable accumulator state of the `parse_question` line loop. -/
structure QState where
  textLines : List (List Char)
  options : List Opt
  correctLetters : List Char
  correctExplanation : List Char
  shortAnswerText : List Char
  title : List Char
  isShortAnswer : Bool
  inCode : Bool
  codeContent : List (List Char)
deriving DecidableEq

/-- Initial accumulator state of `parse_question`. -/
def initState : QState :=
  { textLines := [], options := [], correctLetters := [],
    correctExplanation := [], shortAnswerText := [], title := [],
    isShortAnswer := false, inCode := false, codeContent := [] }

/-- Embedding of `re.findall(r"\b([A-F])(?:\.|,|\s|$)", text)`: scan left to
right; at a word boundary (tracked by `prevWord`), a letter `A`–`F` followed by
`.`/`,`/whitespace matches and the scan resumes after the consumed terminator; a
letter at end of text matches via the `$` alternative; otherwise advance one
character. -/
def findLetters : List Char → Bool → List Char
  | [], _ => []
  | c :: rest, prevWord =>
    if letterAF c && !prevWord && termOrEnd rest then
      c :: (match rest with
            | [] => []
            | t :: rest2 => findLetters rest2 (wordChar t))
    else findLetters rest (wordChar c)

def correctAnswerS : String := "Correct Answer"
def overallFeedbackS : String := "Overall Feedback:"
def saqBoldS : String := "**Short Answer Question:**"
def saqPlainS : String := "Short Answer Question"
def refMarkS : String := "*Reference:"
def noteMarkS : String := "*Note:"
def hashHashS : String := "##"
def headerMarkS : String := "## "
def trailerMarkS : String := "## Learning Objectives"

def correctAnswerStr : List Char := correctAnswerS.toList
def overallFeedbackStr : List Char := overallFeedbackS.toList
def saqBoldStr : List Char := saqBoldS.toList
def saqPlainStr : List Char := saqPlainS.toList
def refMarkStr : List Char := refMarkS.toList
def noteMarkStr : List Char := noteMarkS.toList
def hashHashStr : List Char := hashHashS.toList
def headerMarkStr : List Char := headerMarkS.toList
def trailerMarkStr : List Char := trailerMarkS.toList

/-- Embedding of `re.match(r"^##\s*(.+)$", stripped)` followed by
`.group(1).strip()`: requires at least one character after `##`. -/
def matchHeader (s : List Char) : Option (List Char) :=
  match stripPre hashHashStr s with
  | none => none
  | some rest => if rest = [] then none else some (pyStrip (dropSpaces rest))

/-- Embedding of `re.match(r"^>\s*Correct Answers?:\s*(.+)$", stripped)`
followed by `.group(1).strip()`. -/
def matchCorrect (s : List Char) : Option (List Char) :=
  match s with
  | [] => none
  | c :: rest =>
    if c = gtChar then
      match stripPre correctAnswerStr (dropSpaces rest) with
      | none => none
      | some r2 =>
        match r2 with
        | c1 :: c2 :: t =>
          if c1 = 's' ∧ c2 = ':' then
            if t = [] then none else some (pyStrip (dropSpaces t))
          else if c1 = ':' then
            some (pyStrip (dropSpaces (c2 :: t)))
          else none
        | [_] => none
        | [] => none
    else none

/-- Embedding of `re.match(r"^>\s*Overall Feedback:\s*(.+)$", stripped)`
followed by `.group(1).strip()`. -/
def matchFeedback (s : List Char) : Option (List Char) :=
  match s with
  | [] => none
  | c :: rest =>
    if c = gtChar then
      match stripPre overallFeedbackStr (dropSpaces rest) with
      | none => none
      | some r2 => if r2 = [] then none else some (pyStrip (dropSpaces r2))
    else none

/-- Embedding of `re.match(r"^([A-F])\.\s*(.+)$", stripped)` returning the
letter and `.group(2).strip()`. -/
def matchOption (s : List Char) : Option (Char × List Char) :=
  match s with
  | c :: d :: rest =>
    if letterAF c ∧ d = '.' then
      if rest = [] then none else some (c, pyStrip (dropSpaces rest))
    else none
  | _ => none

/-- Test for the short-answer flag:
`"**Short Answer Question:**" in stripped or "Short Answer Question" in stripped`. -/
def saqPhraseIn (s : List Char) : Bool :=
  hasSub saqBoldStr s || hasSub saqPlainStr s

/-- One iteration of the `for line in lines` loop of `parse_question`. -/
def stepLine (s : QState) (line : Line) : QState :=
  let stripped := pyStrip line
  if tick3.isPrefixOf stripped then
    if s.inCode then
      { s with inCode := false,
               textLines := s.textLines ++ [joinNl (s.codeContent ++ [line])],
               codeContent := [] }
    else
      { s with inCode := true, codeContent := [line] }
  else if s.inCode then
    { s with codeContent := s.codeContent ++ [line] }
  else if stripped = [] ∨ stripped = hyphen3 then s
  else
    match matchHeader stripped with
    | some t => { s with title := t }
    | none =>
      if saqPhraseIn stripped then { s with isShortAnswer := true }
      else
        match matchCorrect stripped with
        | some r =>
          { s with correctLetters := findLetters r false,
                   shortAnswerText :=
                     if findLetters r false = [] then r else s.shortAnswerText }
        | none =>
          match matchFeedback stripped with
          | some f => { s with correctExplanation := f }
          | none =>
            match matchOption stripped with
            | some lt => { s with options := s.options ++ [⟨lt.1, lt.2, false⟩] }
            | none =>
              if refMarkStr.isPrefixOf stripped || noteMarkStr.isPrefixOf stripped then s
              else { s with textLines := s.textLines ++ [line] }

/-- Run the `parse_question` loop over all lines of a block. -/
def runLines (s : QState) : List Line → QState
  | [] => s
  | l :: ls => runLines (stepLine s l) ls

/-- Post-loop marking: set `correct := true` on options whose letter occurs in
the extracted correct-letter list. -/
def markCorrect (opts : List Opt) (letters : List Char) : List Opt :=
  opts.map (fun o => if o.letter ∈ letters then { o with correct := true } else o)

/-- Number of options marked correct (`sum(1 for o in options if o["correct"])`). -/
def countCorrect (opts : List Opt) : Nat := opts.countP (fun o => o.correct)

/-- The accumulated body of a block: `"\n".join(question_text_lines).strip()`. -/
def questionBody (lines : List Line) : List Char :=
  pyStrip (joinNl (runLines initState lines).textLines)

/-- Whether the block set the internal `is_short_answer` flag. -/
def saFlag (lines : List Line) : Bool :=
  (runLines initState lines).isShortAnswer

/-- Embedding of `parse_question(lines, question_num)`. -/
def parseQuestion (lines : List Line) (questionNum : Nat) : Option Question :=
  match lines with
  | [] => none
  | _ :: _ =>
    let s := runLines initState lines
    let opts := markCorrect s.options s.correctLetters
    let text := pyStrip (joinNl s.textLines)
    if text = [] then none
    else
      let cc := countCorrect opts
      let qtype :=
        if s.isShortAnswer ∨ opts = [] then saStr
        else if 1 < cc then msStr
        else mcStr
      let expl :=
        if qtype = saStr ∧ s.shortAnswerText ≠ [] ∧ s.correctExplanation = [] then
          s.shortAnswerText
        else s.correctExplanation
      some { num := questionNum, qtype := qtype, title := s.title, text := text,
             options := opts, correct_explanation := expl,
             short_answer := if qtype = saStr then s.shortAnswerText else [] }

/-- A question-block header at split time:
`stripped.startswith("## ") and not stripped.startswith("## Learning Objectives")`. -/
def isQHeader (s : List Char) : Bool :=
  headerMarkStr.isPrefixOf s && !(trailerMarkStr.isPrefixOf s)

/-- The reserved trailer: `stripped.startswith("## Learning Objectives")`. -/
def isTrailer (s : List Char) : Bool := trailerMarkStr.isPrefixOf s

def isQHeaderLine (l : Line) : Bool := isQHeader (pyStrip l)

def isTrailerLine (l : Line) : Bool := isTrailer (pyStrip l)

/-- The in-loop flush of `parse_quiz_file`:
`if current_block and question_num > 0: q = parse_question(...); if q: append`. -/
def flushLoop (block : List Line) (num : Nat) (acc : List Question) : List Question :=
  match block with
  | [] => acc
  | _ :: _ =>
    if 0 < num then
      match parseQuestion block num with
      | some q => acc ++ [q]
      | none => acc
    else acc

/-- The `for line in lines` loop of `parse_quiz_file`, returning the questions
accumulated so far together with the final `current_block` and `question_num`
(the loop `break`s at a trailer header). -/
def quizLoop : List Line → List Line → Nat → Bool → List Question →
    List Question × List Line × Nat
  | [], block, num, _, acc => (acc, block, num)
  | line :: rest, block, num, inQ, acc =>
    if isQHeaderLine line then
      quizLoop rest [line] (num + 1) true (flushLoop block num acc)
    else if isTrailerLine line then
      (flushLoop block num acc, block, num)
    else if inQ then quizLoop rest (block ++ [line]) num inQ acc
    else quizLoop rest block num inQ acc

/-- The guard `if not questions or questions[-1]["num"] != q["num"]` applied
when handling the last open block. -/
def dedupGuard (acc : List Question) (q : Question) : Bool :=
  match acc.getLast? with
  | none => true
  | some l => !(l.num == q.num)

/-- The post-loop handling of the final `current_block` in `parse_quiz_file`. -/
def finishQuiz : List Question × List Line × Nat → List Question
  | (acc, block, num) =>
    match block with
    | [] => acc
    | _ :: _ =>
      if 0 < num then
        match parseQuestion block num with
        | some q => if dedupGuard acc q then acc ++ [q] else acc
        | none => acc
      else acc

/-- Embedding of `parse_quiz_file`, from the `content.split("\n")` result on. -/
def parseQuizLines (lines : List Line) : List Question :=
  finishQuiz (quizLoop lines [] 0 false [])

/-- Embedding of `parse_quiz_file` on the raw document text (the file contents),
mirroring `lines = content.split("\n")`. -/
def parseQuizDoc (content : List Char) : List Question :=
  parseQuizLines (splitNl content)

/-- Block-splitter phase, reformulated declaratively for the refinement proof:
skip the document preamble up to the first question header; a trailer line seen
first means no questions at all. -/
def skipPreamble : List Line → Option (Line × List Line)
  | [] => none
  | l :: ls =>
    if isQHeaderLine l then some (l, ls)
    else if isTrailerLine l then none
    else skipPreamble ls

/-- Block-splitter phase: accumulate the current block until the next question
header or the trailer or end of document. -/
def splitAux : List Line → List Line → List (List Line)
  | [], cur => [cur]
  | l :: rest, cur =>
    if isQHeaderLine l then cur :: splitAux rest [l]
    else if isTrailerLine l then [cur]
    else splitAux rest (cur ++ [l])

/-- The ordered question blocks of a document (declarative splitter). -/
def splitBlocks (lines : List Line) : List (List Line) :=
  match skipPreamble lines with
  | none => []
  | some (l, ls) => splitAux ls [l]

/-- Parse blocks numbered consecutively from `n`, keeping the successes. -/
def fmEnum : Nat → List (List Line) → List Question
  | _, [] => []
  | n, b :: bs =>
    match parseQuestion b n with
    | some q => q :: fmEnum (n + 1) bs
    | none => fmEnum (n + 1) bs

/-- Declarative form of `parse_quiz_file`: split into blocks, number them from
1, parse each block at most once. -/
def questionsOf (lines : List Line) : List Question :=
  fmEnum 1 (splitBlocks lines)

/-- Count of question headers occurring strictly before the first trailer line. -/
def headerCount (lines : List Line) : Nat :=
  (lines.takeWhile (fun l => !(isTrailerLine l))).countP isQHeaderLine

def strongOpenS : String := "<strong>"
def strongCloseS : String := "</strong>"
def codeOpenS : String := "<code>"
def codeCloseS : String := "</code>"
def brS : String := "<br>"
def nbspS : String := "&nbsp;"
def divOpenS : String := "<div style=\"font-family: monospace; background-color: #f4f4f4; padding: 10px; line-height: 1.4; font-size: 0.7em;\">"
def divCloseS : String := "</div>"
def phPreS : String := "__CODE_BLOCK_"
def phSufS : String := "__"

def strongOpen : List Char := strongOpenS.toList
def strongClose : List Char := strongCloseS.toList
def codeOpen : List Char := codeOpenS.toList
def codeClose : List Char := codeCloseS.toList
def brStr : List Char := brS.toList
def nbspStr : List Char := nbspS.toList
def divOpen : List Char := divOpenS.toList
def divClose : List Char := divCloseS.toList
def phPre : List Char := phPreS.toList
def phSuf : List Char := phSufS.toList
def nlStr : List Char := ['\n']
def spaceStr : List Char := [' ']

/-- Decimal digits of a natural number (fuelled helper). -/
def natCharsAux : Nat → Nat → List Char
  | 0, _ => []
  | fuel + 1, n =>
    if n < 10 then [Char.ofNat (48 + n)]
    else natCharsAux fuel (n / 10) ++ [Char.ofNat (48 + n % 10)]

/-- Decimal representation of a natural number, as Python `str(i)`. -/
def natChars (n : Nat) : List Char := natCharsAux (n + 1) n

/-- The placeholder token `__CODE_BLOCK_{i}__` used by `format_question_text`. -/
def placeholder (i : Nat) : List Char := phPre ++ natChars i ++ phSuf

/-- Generic left-to-right non-overlapping rewrite scanner, the common shape of
`re.sub` with the deterministic patterns used here and of `str.replace`: at each
position ask `t` for a match (replacement text and remainder); on failure emit
one character and advance. Fuelled for structural termination; every step
consumes at least one input character, so `length + 1` fuel suffices. -/
def scanSub (t : List Char → Option (List Char × List Char)) :
    Nat → List Char → List Char
  | 0, cs => cs
  | _ + 1, [] => []
  | fuel + 1, c :: rest =>
    match t (c :: rest) with
    | some pr => pr.1 ++ scanSub t fuel pr.2
    | none => c :: scanSub t fuel rest

/-- Run the rewrite scanner with sufficient fuel. -/
def scanS (t : List Char → Option (List Char × List Char)) (cs : List Char) :
    List Char :=
  scanSub t (cs.length + 1) cs

/-- Matcher for `re.sub(r"\*\*([^*]+)\*\*", r"<strong>\1</strong>", ...)` at one
position: two stars, a maximal nonempty star-free run, two stars. -/
def tryBold : List Char → Option (List Char × List Char)
  | a :: b :: rest =>
    if a = '*' ∧ b = '*' then
      let w := rest.takeWhile (fun c => !(c = '*'))
      match rest.dropWhile (fun c => !(c = '*')) with
      | c :: d :: tail =>
        if c = '*' ∧ d = '*' ∧ w ≠ [] then
          some (strongOpen ++ w ++ strongClose, tail)
        else none
      | _ => none
    else none
  | _ => none

/-- Matcher for ``re.sub(r"`([^`]+)`", r"<code>\1</code>", ...)`` at one
position: a backtick, a maximal nonempty backtick-free run, a backtick. -/
def tryICode : List Char → Option (List Char × List Char)
  | a :: rest =>
    if a = tickChar then
      let w := rest.takeWhile (fun c => !(c = tickChar))
      match rest.dropWhile (fun c => !(c = tickChar)) with
      | _ :: tail => if w = [] then none else some (codeOpen ++ w ++ codeClose, tail)
      | [] => none
    else none
  | [] => none

/-- Matcher giving `str.replace(pat, rep)` semantics under `scanS` (for a
nonempty pattern). -/
def tryRepl (pat rep cs : List Char) : Option (List Char × List Char) :=
  if pat ≠ [] ∧ pat.isPrefixOf cs then some (rep, cs.drop pat.length) else none

/-- Whether the text begins with a triple backtick. -/
def isTriplePre : List Char → Bool
  | a :: b :: c :: _ => a = tickChar && b = tickChar && c = tickChar
  | _ => false

/-- Split at the first triple-backtick occurrence: the lazy `(.*?)``` ` tail of
the fenced-code regex. Returns the content before it and the text after it. -/
def splitTriple : List Char → Option (List Char × List Char)
  | [] => none
  | c :: rest =>
    if isTriplePre (c :: rest) then some ([], (c :: rest).drop 3)
    else
      match splitTriple rest with
      | some pr => some (c :: pr.1, pr.2)
      | none => none

/-- Matcher for the fenced-code regex ``` ```(?:\w+)?\n?(.*?)``` ``` (DOTALL) at
one position: an opening triple backtick, a maximal word-character language tag,
an optional newline, then lazily up to the next triple backtick. Returns the
captured content and the remainder after the closing delimiter. -/
def tryFence : List Char → Option (List Char × List Char)
  | a :: b :: c :: rest =>
    if a = tickChar ∧ b = tickChar ∧ c = tickChar then
      let r1 := rest.dropWhile wordChar
      let r2 := match r1 with
                | nlc :: t => if nlc = '\n' then t else r1
                | [] => r1
      splitTriple r2
    else none
  | _ => none

/-- Join code lines with `<br>` (`"<br>".join(processed_lines)`). -/
def joinBr : List (List Char) → List Char
  | [] => []
  | [l] => l
  | l :: ls => l ++ brStr ++ joinBr ls

/-- The `replace_code_block` callback: split the captured content on newlines,
replace every space with `&nbsp;`, join with `<br>`, wrap in the styled `div`. -/
def fmtCode (content : List Char) : List Char :=
  divOpen ++
    joinBr ((splitNl content).map (fun l => scanS (tryRepl spaceStr nbspStr) l)) ++
    divClose

/-- The fenced-code `re.sub` pass: replace each fenced region with a numbered
placeholder and collect the formatted regions in order. Fuelled as `scanSub`. -/
def subFenceAux : Nat → List Char → Nat → List Char × List (List Char)
  | 0, cs, _ => (cs, [])
  | _ + 1, [], _ => ([], [])
  | fuel + 1, c :: rest, i =>
    match tryFence (c :: rest) with
    | some pr =>
      let r := subFenceAux fuel pr.2 (i + 1)
      (placeholder i ++ r.1, fmtCode pr.1 :: r.2)
    | none =>
      let r := subFenceAux fuel rest i
      (c :: r.1, r.2)

/-- Run the fenced-code pass with sufficient fuel. -/
def subFence (cs : List Char) : List Char × List (List Char) :=
  subFenceAux (cs.length + 1) cs 0

/-- The restore loop: `result = result.replace(f"__CODE_BLOCK_{i}__", block)`
for each collected block in order. -/
def restoreBlocks : List Char → List (List Char) → Nat → List Char
  | cs, [], _ => cs
  | cs, b :: bs, i => restoreBlocks (scanS (tryRepl (placeholder i) b) cs) bs (i + 1)

/-- Embedding of `format_question_text`: isolate fenced code behind
placeholders, rewrite bold and inline code, convert newlines to `<br>`, then
restore the formatted code regions. -/
def formatQuestionText (text : List Char) : List Char :=
  let p := subFence text
  let r2 := scanS tryBold p.1
  let r3 := scanS tryICode r2
  let r4 := scanS (tryRepl nlStr brStr) r3
  restoreBlocks r4 p.2 0

/-- Modelled from the spec words of claim C2 (positional reading): walk the
text left to right and collect every uppercase letter `A`–`F` that is standalone
(at the start of the text or preceded by a non-word character) and immediately
followed by a period, comma, whitespace, or the end of the text. -/
def standaloneLettersAux : List Char → Bool → List Char
  | [], _ => []
  | c :: rest, prevWord =>
    (if letterAF c && !prevWord && termOrEnd rest then [c] else []) ++
      standaloneLettersAux rest (wordChar c)

/-- Modelled from the spec words of claim C2, starting at a word boundary. -/
def standaloneLetters (cs : List Char) : List Char := standaloneLettersAux cs false

/-- Character-by-character replacement: structural form of
`str.replace(⟨a⟩, rep)` for a single-character pattern. -/
def expandOn (a : Char) (rep : List Char) : List Char → List Char
  | [] => []
  | c :: rest => (if c = a then rep else [c]) ++ expandOn a rep rest

/-- Newlines to `<br>` (structural form of `result.replace("\n", "<br>")`). -/
def nlToBr (cs : List Char) : List Char := expandOn '\n' brStr cs

/-- A piece of authoring-markup text outside any fence: plain text, a
double-asterisk bold span, or a single-backtick inline-code span. -/
inductive Seg where
  | plain : List Char → Seg
  | bold : List Char → Seg
  | icode : List Char → Seg
deriving DecidableEq

/-- Authoring-markup rendering of a segment. -/
def mdOfSeg : Seg → List Char
  | .plain s => s
  | .bold w => '*' :: '*' :: (w ++ ['*', '*'])
  | .icode w => tickChar :: (w ++ [tickChar])

/-- Authoring-markup rendering of a segment sequence. -/
def mdOfSegs (segs : List Seg) : List Char := (segs.map mdOfSeg).flatten

/-- Target-markup (HTML) rendering of a segment after all rewrite passes:
newlines become `<br>` everywhere outside the fence, including inside the
rewritten spans (the newline replacement runs on the whole string). -/
def htmlOfSeg : Seg → List Char
  | .plain s => nlToBr s
  | .bold w => strongOpen ++ (nlToBr w ++ strongClose)
  | .icode w => codeOpen ++ (nlToBr w ++ codeClose)

/-- Target-markup rendering of a segment sequence. -/
def htmlOfSegs (segs : List Seg) : List Char := (segs.map htmlOfSeg).flatten

/-- Rendering of a segment after the bold rewrite pass only. -/
def bold1Seg : Seg → List Char
  | .plain s => s
  | .bold w => strongOpen ++ (w ++ strongClose)
  | .icode w => tickChar :: (w ++ [tickChar])

/-- Rendering of a segment sequence after the bold pass. -/
def bold1Segs (segs : List Seg) : List Char := (segs.map bold1Seg).flatten

/-- Rendering of a segment after the bold and inline-code passes. -/
def icode2Seg : Seg → List Char
  | .plain s => s
  | .bold w => strongOpen ++ (w ++ strongClose)
  | .icode w => codeOpen ++ (w ++ codeClose)

/-- Rendering of a segment sequence after the bold and inline-code passes. -/
def icode2Segs (segs : List Seg) : List Char := (segs.map icode2Seg).flatten

/-- The user-authored text carried by a segment. -/
def segText : Seg → List Char
  | .plain s => s
  | .bold w => w
  | .icode w => w

/-- Marker-free text: no asterisk and no backtick (the two rewrite markers). -/
def goodText (s : List Char) : Prop := '*' ∉ s ∧ tickChar ∉ s

instance : DecidablePred goodText := fun _ =>
  inferInstanceAs (Decidable (_ ∧ _))

/-- Well-formed (properly paired) outside-fence markup: bold and inline-code
spans wrap nonempty marker-free text; plain text is marker-free. Underscores
and newlines are unrestricted, matching the `[^*]+` and backtick-negated
character classes of the rewrite regexes. -/
def wfSeg : Seg → Prop
  | .plain s => goodText s
  | .bold w => w ≠ [] ∧ goodText w
  | .icode w => w ≠ [] ∧ goodText w

instance : DecidablePred wfSeg := fun s =>
  match s with
  | .plain t => inferInstanceAs (Decidable (goodText t))
  | .bold _ => inferInstanceAs (Decidable (_ ∧ _))
  | .icode _ => inferInstanceAs (Decidable (_ ∧ _))

/-- Whether `p` occurs (as a contiguous run) anywhere in the text: the guard
needed for the placeholder-restore `str.replace` to hit only the placeholder
itself. -/
def occursInB (p : List Char) : List Char → Bool
  | [] => p.isPrefixOf []
  | c :: rest => p.isPrefixOf (c :: rest) || occursInB p rest

/-- All segments well formed. -/
def wfSegs (segs : List Seg) : Prop := ∀ s ∈ segs, wfSeg s

/-- Whether the text contains a triple-backtick occurrence. -/
def hasTriple : List Char → Bool
  | a :: b :: c :: rest =>
    (a = tickChar && b = tickChar && c = tickChar) || hasTriple (b :: c :: rest)
  | _ => false

/-- A body made of well-formed outside markup around one properly fenced code
region: the fence opens on its own line after the preceding text, carries a
word-character language tag, and closes with a delimiter on its own line. -/
def fenceBody (pre : List Seg) (tag content : List Char) (post : List Seg) :
    List Char :=
  mdOfSegs pre ++ '\n' :: (tick3 ++ tag ++ '\n' :: content) ++ tick3 ++
    '\n' :: mdOfSegs post

/-- The expected translation of `fenceBody`: rendered outside markup around the
formatted code region. -/
def fenceHtml (pre : List Seg) (content : List Char) (post : List Seg) :
    List Char :=
  htmlOfSegs pre ++ brStr ++ fmtCode content ++ brStr ++ htmlOfSegs post

/-- Decidable packaging of the three kind biconditionals asserted by claim C1
for the question (if any) parsed from a block, given the block's short-answer
flag. -/
def c1BicondCheck (o : Option Question) (flag : Bool) : Bool :=
  match o with
  | none => true
  | some q =>
    (decide ((q.qtype = saStr) ↔ (flag = true ∨ q.options = []))) &&
    (decide ((q.qtype = msStr) ↔ 1 < countCorrect q.options)) &&
    (decide ((q.qtype = mcStr) ↔ (countCorrect q.options = 1 ∧ flag = false)))

/-- The option letters of a parse result, in document order. -/
def optionLetters : Option Question → List Char
  | none => []
  | some q => q.options.map (fun o => o.letter)

def abcdefS : String := "ABCDEF"

/-- The allowed option letters. -/
def abcdef : List Char := abcdefS.toList

def c1cexS : String := "## T\nWhy?\nA. x\nB. y"

/-- Block with options but no correct-answer line: parses to an `MC` question
with zero correct options. -/
def c1cexLines : List Line := splitNl c1cexS.toList

def c3cexS : String := "## T\nPick one\nA. first\nA. second"

/-- Block whose two option lines repeat the letter `A`. -/
def c3cexLines : List Line := splitNl c3cexS.toList

def c8cexBodyS : String := "```\nx y\n```\na ** b"

/-- Body with one properly fenced region (content `"x y\n"`, no markers inside)
followed by an unpaired `**` marker outside the fence. -/
def c8cexBody : List Char := c8cexBodyS.toList

def c8cexContentS : String := "x y\n"

/-- The fenced content of `c8cexBody`. -/
def c8cexContent : List Char := c8cexContentS.toList

def starStarS : String := "**"

/-- The literal two-character bold marker. -/
def starStar : List Char := starStarS.toList

def scenario5S : String :=
  "## Q1\nbody one\n## Q2\nbody two\n## Q3\nbody three\n## Learning Objectives\n- obj\n## Q4\nbody four"

/-- Document with three valid question headers followed by a trailing
`## Learning Objectives` section (spec Scenario 5). -/
def scenario5 : List Line := splitNl scenario5S.toList

def c4preS : String := "## A\nbody a\n## B\nbody b"

/-- Trailer-free document prefix used in witnesses. -/
def c4pre : List Line := splitNl c4preS.toList

def c4trailerS : String := "## Learning Objectives"

/-- A trailer header line. -/
def c4trailer : Line := c4trailerS.toList

def c4sufS : String := "- objective\n## C\nnever seen"

/-- Suffix content after the trailer, never scanned. -/
def c4suf : List Line := splitNl c4sufS.toList

def c2lineS : String := "> Correct Answers: A, C"

/-- A correct-answer declaration line. -/
def c2line : Line := c2lineS.toList

def c2remS : String := "A, C"

/-- The remainder text of `c2line` after the declaration marker. -/
def c2rem : List Char := c2remS.toList

def c9preS : String := "## T\nsome body"

/-- Block prefix before an unterminated fence. -/
def c9pre : List Line := splitNl c9preS.toList

def c9fenceS : String := "```python"

/-- An opening fence line with a language tag. -/
def c9fence : Line := c9fenceS.toList

def c9postS : String := "swallowed line\nA. ghost option"

/-- Lines after the unterminated fence, all silently discarded. -/
def c9post : List Line := splitNl c9postS.toList

/-- Whether some block in the numbered tail starting at `n` is discarded
(`parse_question` returns `None` for it). -/
def someDiscarded : Nat → List (List Line) → Bool
  | _, [] => false
  | n, b :: bs => (parseQuestion b n).isNone || someDiscarded (n + 1) bs

def c1wTitleS : String := "T"
def c1wTextS : String := "Why?"
def c1wOptAS : String := "x"
def c1wOptBS : String := "y"

/-- The question parsed from `c1cexLines`. -/
def c1wQ : Question :=
  { num := 1, qtype := mcStr, title := c1wTitleS.toList, text := c1wTextS.toList,
    options := [⟨'A', c1wOptAS.toList, false⟩, ⟨'B', c1wOptBS.toList, false⟩],
    correct_explanation := [], short_answer := [] }

def c3wTextS : String := "Pick one"
def c3wOpt1S : String := "first"
def c3wOpt2S : String := "second"

/-- The question parsed from `c3cexLines`. -/
def c3wQ : Question :=
  { num := 1, qtype := mcStr, title := c1wTitleS.toList, text := c3wTextS.toList,
    options := [⟨'A', c3wOpt1S.toList, false⟩, ⟨'A', c3wOpt2S.toList, false⟩],
    correct_explanation := [], short_answer := [] }

def c6blockS : String := "## OnlyHeader"

/-- A block consisting of a stray header only: its body is empty. -/
def c6block : List Line := splitNl c6blockS.toList

def c6wTitleS : String := "A"
def c6wTextS : String := "body a"

/-- The first question parsed from `c4pre`. -/
def c6wQ : Question :=
  { num := 1, qtype := saStr, title := c6wTitleS.toList, text := c6wTextS.toList,
    options := [], correct_explanation := [], short_answer := [] }

def c7lastS : String := "## B\nbody b"

/-- The final block of `c4pre`. -/
def c7lastBlock : List Line := splitNl c7lastS.toList

def c7wTitleS : String := "B"
def c7wTextS : String := "body b"

/-- The question parsed from the final block of `c4pre`. -/
def c7wQ : Question :=
  { num := 2, qtype := saStr, title := c7wTitleS.toList, text := c7wTextS.toList,
    options := [], correct_explanation := [], short_answer := [] }

def c5docS : String := "## A\nbody\n## Empty\n## C\nbody c"

/-- Document with three headers whose middle block has no body (discarded). -/
def c5doc : List Line := splitNl c5docS.toList

def c8wBoldS : String := "bold\nlines"
def c8wPlain1S : String := "see "
def c8wPlain2S : String := " and after_text"
def c8wTagS : String := "python"
def c8wContentS : String := "x = a*b\nprint(x)\n"
def c8wICodeS : String := "my_var"

/-- Witness segments before the fence: plain text, then a bold span containing
a newline, then plain text containing an underscore. -/
def c8wPre : List Seg :=
  [.plain c8wPlain1S.toList, .bold c8wBoldS.toList, .plain c8wPlain2S.toList]

/-- Witness segments after the fence: an inline-code span containing an
underscore, then plain text containing an underscore. -/
def c8wPost : List Seg := [.icode c8wICodeS.toList, .plain c8wPlain2S.toList]

/-! ### General lemmas about the question parser -/

theorem runLines_append (s : QState) (xs ys : List Line) :
    runLines s (xs ++ ys) = runLines (runLines s xs) ys := by
  induction xs generalizing s with
  | nil => rfl
  | cons l ls ih => simp [runLines, ih]

theorem parseQuestion_num {lines : List Line} {n : Nat} {q : Question}
    (h : parseQuestion lines n = some q) : q.num = n := by
  cases lines with
  | nil => simp [parseQuestion] at h
  | cons l ls =>
    simp only [parseQuestion] at h
    split at h
    · exact absurd h (by simp)
    · simp only [Option.some.injEq] at h
      subst h
      rfl

theorem parseQuestion_text {lines : List Line} {n : Nat} {q : Question}
    (h : parseQuestion lines n = some q) :
    q.text = questionBody lines ∧ q.text ≠ [] := by
  cases lines with
  | nil => simp [parseQuestion] at h
  | cons l ls =>
    simp only [parseQuestion] at h
    split at h
    · exact absurd h (by simp)
    · simp only [Option.some.injEq] at h
      subst h
      exact ⟨rfl, by assumption⟩

/-- If a block's accumulated body strips to nothing, the block is discarded. -/
theorem parseQuestion_none_of_empty_body {lines : List Line} {n : Nat}
    (h : questionBody lines = []) : parseQuestion lines n = none := by
  cases lines with
  | nil => rfl
  | cons l ls =>
    simp only [parseQuestion]
    split
    · rfl
    · exact absurd h (by assumption)

/-- A terminator character is never an option letter. -/
theorem letterAF_of_termAfter {t : Char} (h : termAfter t = true) :
    letterAF t = false := by
  simp only [termAfter, isPySpace, Bool.or_eq_true, decide_eq_true_eq] at h
  have h2 : t = '.' ∨ t = ',' ∨ t = ' ' ∨ t = '\t' ∨ t = '\n' ∨ t = '\x0d' ∨
      t = '\x0b' ∨ t = '\x0c' := by tauto
  rcases h2 with h2 | h2 | h2 | h2 | h2 | h2 | h2 | h2 <;> subst h2 <;> decide

/-- The `re.findall` scan computes exactly the positional standalone-letter
extraction described by the spec. -/
theorem findLetters_eq_standalone_aux :
    ∀ (fuel : Nat) (cs : List Char) (pw : Bool), cs.length ≤ fuel →
      findLetters cs pw = standaloneLettersAux cs pw := by
  intro fuel
  induction fuel with
  | zero =>
    intro cs pw h
    cases cs with
    | nil => rfl
    | cons c rest => simp at h
  | succ m ih =>
    intro cs pw h
    cases cs with
    | nil => rfl
    | cons c rest =>
      rw [findLetters.eq_def, standaloneLettersAux.eq_def]
      dsimp only
      by_cases hc : (letterAF c && !pw && termOrEnd rest) = true
      · rw [if_pos hc, if_pos hc]
        cases rest with
        | nil => rfl
        | cons t rest2 =>
          have ht : termAfter t = true := by
            have h2 := (Bool.and_eq_true _ _).mp hc
            exact h2.2
          have hAF : letterAF t = false := letterAF_of_termAfter ht
          rw [standaloneLettersAux.eq_def]
          dsimp only
          have hcond : (letterAF t && !(wordChar c) && termOrEnd rest2) = false := by
            rw [hAF]; rfl
          simp only [hcond, Bool.false_eq_true, if_false, List.nil_append,
            List.singleton_append, List.cons.injEq, true_and]
          have hlen : rest2.length ≤ m := by
            simp only [List.length_cons] at h
            omega
          exact ih rest2 (wordChar t) hlen
      · rw [if_neg hc, if_neg hc]
        simp only [List.nil_append]
        have hlen : rest.length ≤ m := by
          simp only [List.length_cons] at h
          omega
        exact ih rest (wordChar c) hlen

theorem findLetters_eq_standalone (cs : List Char) :
    findLetters cs false = standaloneLetters cs :=
  findLetters_eq_standalone_aux cs.length cs false le_rfl

/-- A correct-answer declaration line starts with `>`. -/
theorem matchCorrect_shape {s : List Char} {r : List Char}
    (h : matchCorrect s = some r) : ∃ rest, s = gtChar :: rest := by
  cases s with
  | nil => simp [matchCorrect] at h
  | cons c cs =>
    simp only [matchCorrect] at h
    split at h
    · exact ⟨cs, by rename_i hgt; rw [hgt]⟩
    · exact absurd h (by simp)

theorem tick3_not_prefix_gt (rest : List Char) :
    tick3.isPrefixOf (gtChar :: rest) = false := by
  show List.isPrefixOf _ _ = false
  simp only [tick3, List.isPrefixOf]
  rw [show (tickChar == gtChar) = false from by decide]
  rfl

theorem matchHeader_gt (rest : List Char) :
    matchHeader (gtChar :: rest) = none := by
  simp only [matchHeader, hashHashStr, hashHashS, stripPre]
  rw [if_neg (by decide : ¬ (gtChar = '#'))]

theorem gt_cons_ne_hyphen3 (rest : List Char) : gtChar :: rest ≠ hyphen3 := by
  intro h
  have : gtChar = '-' := by
    have := congrArg (fun l => l.headD ' ') h
    simpa [hyphen3, hyphen3S] using this
  exact absurd this (by decide)

/-- Processing a correct-answer declaration line outside a fence: the letter
list is replaced by the extraction, and the free-response candidate is set to
the whole remainder exactly when the extraction is empty. -/
theorem stepLine_correct {s : QState} {line : Line} {r : List Char}
    (hs : s.inCode = false)
    (hsaq : saqPhraseIn (pyStrip line) = false)
    (hm : matchCorrect (pyStrip line) = some r) :
    stepLine s line =
      { s with
          correctLetters := findLetters r false
          shortAnswerText :=
            if findLetters r false = [] then r else s.shortAnswerText } := by
  obtain ⟨rest, hrest⟩ := matchCorrect_shape hm
  rw [hrest] at hsaq hm
  unfold stepLine
  rw [hrest]
  simp only [tick3_not_prefix_gt, Bool.false_eq_true, if_false, hs, hsaq, hm,
    matchHeader_gt]
  rw [if_neg (by simp [gt_cons_ne_hyphen3 rest])]

/-- Inside an open fence, a non-delimiter line is appended to the pending code
buffer and nothing else changes. -/
theorem stepLine_inCode {s : QState} {l : Line} (hs : s.inCode = true)
    (hl : tick3.isPrefixOf (pyStrip l) = false) :
    stepLine s l = { s with codeContent := s.codeContent ++ [l] } := by
  unfold stepLine
  simp only [hl, Bool.false_eq_true, if_false, hs, if_true]

/-- A fence delimiter line seen outside code mode opens code mode. -/
theorem stepLine_openFence {s : QState} {l : Line} (hs : s.inCode = false)
    (hl : tick3.isPrefixOf (pyStrip l) = true) :
    stepLine s l = { s with inCode := true, codeContent := [l] } := by
  unfold stepLine
  simp only [hl, if_true, hs, Bool.false_eq_true, if_false]

/-- With code mode open and no closing delimiter, the rest of the block is
absorbed into the (never flushed) code buffer. -/
theorem runLines_inCode :
    ∀ (post : List Line) (s : QState), s.inCode = true →
      (∀ l ∈ post, tick3.isPrefixOf (pyStrip l) = false) →
      runLines s post = { s with codeContent := s.codeContent ++ post } := by
  intro post
  induction post with
  | nil => intro s hs _; simp [runLines]
  | cons l ls ih =>
    intro s hs hall
    rw [runLines, stepLine_inCode hs (hall l (by simp))]
    rw [ih { s with codeContent := s.codeContent ++ [l] } hs
      (fun x hx => hall x (by simp [hx]))]
    simp

/-- Two nonempty blocks that drive the accumulator to states agreeing on every
field read by the post-processing yield the same parse result. -/
theorem parseQuestion_congr_state {l1 l2 : Line} {ls1 ls2 : List Line} {n : Nat}
    (htext : (runLines initState (l1 :: ls1)).textLines =
      (runLines initState (l2 :: ls2)).textLines)
    (hopt : (runLines initState (l1 :: ls1)).options =
      (runLines initState (l2 :: ls2)).options)
    (hlet : (runLines initState (l1 :: ls1)).correctLetters =
      (runLines initState (l2 :: ls2)).correctLetters)
    (hexp : (runLines initState (l1 :: ls1)).correctExplanation =
      (runLines initState (l2 :: ls2)).correctExplanation)
    (hsa : (runLines initState (l1 :: ls1)).shortAnswerText =
      (runLines initState (l2 :: ls2)).shortAnswerText)
    (htitle : (runLines initState (l1 :: ls1)).title =
      (runLines initState (l2 :: ls2)).title)
    (hflag : (runLines initState (l1 :: ls1)).isShortAnswer =
      (runLines initState (l2 :: ls2)).isShortAnswer) :
    parseQuestion (l1 :: ls1) n = parseQuestion (l2 :: ls2) n := by
  simp only [parseQuestion]
  rw [htext, hopt, hlet, hexp, hsa, htitle, hflag]

/-- Claim C9: an opening fence with no later closing delimiter swallows the
rest of the block; the parse result is that of the prefix alone, and a block
with no preceding body is discarded entirely. -/
theorem claimC9 :
    ∀ (pre : List Line) (f : Line) (post : List Line) (n : Nat),
      tick3.isPrefixOf (pyStrip f) = true →
      (∀ l ∈ post, tick3.isPrefixOf (pyStrip l) = false) →
      (runLines initState pre).inCode = false →
      parseQuestion (pre ++ f :: post) n = parseQuestion pre n ∧
      (questionBody pre = [] → parseQuestion (pre ++ f :: post) n = none) := by
  intro pre f post n hf hpost hpre
  have key : runLines initState (pre ++ f :: post) =
      { runLines initState pre with
          inCode := true
          codeContent := [f] ++ post } := by
    rw [runLines_append, runLines, stepLine_openFence hpre hf,
      runLines_inCode post _ rfl hpost]
  have heq : parseQuestion (pre ++ f :: post) n = parseQuestion pre n := by
    cases pre with
    | nil =>
      have h2 : questionBody ([] ++ f :: post) = [] := by
        unfold questionBody
        rw [key]
        rfl
      rw [parseQuestion_none_of_empty_body h2]
      rfl
    | cons p ps =>
      have hc : (p :: ps) ++ f :: post = p :: (ps ++ f :: post) := rfl
      rw [hc] at key ⊢
      exact parseQuestion_congr_state (by rw [key]) (by rw [key]) (by rw [key])
        (by rw [key]) (by rw [key]) (by rw [key]) (by rw [key])
  refine ⟨heq, fun hb => ?_⟩
  rw [heq]
  exact parseQuestion_none_of_empty_body hb

/-- Witness for claim C9 at a concrete block with an unterminated fence. -/
theorem claimC9_witness :
    tick3.isPrefixOf (pyStrip c9fence) = true ∧
    (∀ l ∈ c9post, tick3.isPrefixOf (pyStrip l) = false) ∧
    (runLines initState c9pre).inCode = false ∧
    (parseQuestion (c9pre ++ c9fence :: c9post) 1 = parseQuestion c9pre 1 ∧
      (questionBody c9pre = [] →
        parseQuestion (c9pre ++ c9fence :: c9post) 1 = none)) :=
  ⟨by decide, by decide, by decide,
    claimC9 c9pre c9fence c9post 1 (by decide) (by decide) (by decide)⟩

/-- Claim C2: when a line is classified as a correct-answer declaration with
remainder `r`, the stored correct-letter list is exactly the standalone letters
`A`–`F` of `r` followed by a period, comma, whitespace or end of text, in left
to right order; when that extraction is empty the whole remainder is captured
as the free-response answer candidate instead, and otherwise the candidate is
untouched. -/
theorem claimC2 :
    ∀ (s : QState) (line : Line) (r : List Char),
      s.inCode = false →
      saqPhraseIn (pyStrip line) = false →
      matchCorrect (pyStrip line) = some r →
      ((stepLine s line).correctLetters = standaloneLetters r ∧
        ((stepLine s line).correctLetters = [] →
          (stepLine s line).shortAnswerText = r) ∧
        ((stepLine s line).correctLetters ≠ [] →
          (stepLine s line).shortAnswerText = s.shortAnswerText)) ∧
      findLetters r false = standaloneLetters r := by
  intro s line r hs hsaq hm
  have hfe := findLetters_eq_standalone r
  rw [stepLine_correct hs hsaq hm]
  refine ⟨⟨hfe, ?_, ?_⟩, hfe⟩
  · intro h
    simp only at h ⊢
    rw [if_pos h]
  · intro h
    simp only at h ⊢
    rw [if_neg h]

/-- Claim C1 (amended): the kind classification of a parsed question satisfies
`SA` iff the block was flagged short-answer or the options list is empty;
`MS` iff not so and more than one option is marked correct; `MC` iff not so and
at most one option is marked correct (zero marked-correct options still yield
`MC`). -/
theorem claimC1_amended :
    ∀ (lines : List Line) (n : Nat) (q : Question),
      parseQuestion lines n = some q →
      ((q.qtype = saStr) ↔ (saFlag lines = true ∨ q.options = [])) ∧
      ((q.qtype = msStr) ↔
        (saFlag lines = false ∧ q.options ≠ [] ∧ 1 < countCorrect q.options)) ∧
      ((q.qtype = mcStr) ↔
        (saFlag lines = false ∧ q.options ≠ [] ∧ countCorrect q.options ≤ 1)) := by
  intro lines n q h
  cases lines with
  | nil => simp [parseQuestion] at h
  | cons l ls =>
    simp only [parseQuestion] at h
    split at h
    · exact absurd h (by simp)
    · simp only [Option.some.injEq] at h
      subst h
      dsimp only
      simp only [saFlag]
      split
      · rename_i hA
        refine ⟨⟨fun _ => hA, fun _ => rfl⟩,
          ⟨fun hh => absurd hh (by decide), ?_⟩,
          ⟨fun hh => absurd hh (by decide), ?_⟩⟩ <;>
        · rintro ⟨h1, h2, -⟩
          rcases hA with hA | hA
          · rw [hA] at h1
            exact absurd h1 (by decide)
          · exact absurd hA h2
      · rename_i hA
        obtain ⟨hf, ho⟩ := not_or.mp hA
        have hflag : (runLines initState (l :: ls)).isShortAnswer = false := by
          cases hb : (runLines initState (l :: ls)).isShortAnswer
          · rfl
          · exact absurd hb hf
        split
        · rename_i hB
          refine ⟨⟨fun hh => absurd hh (by decide), ?_⟩,
            ⟨fun _ => ⟨hflag, ho, hB⟩, fun _ => rfl⟩,
            ⟨fun hh => absurd hh (by decide), ?_⟩⟩
          · rintro (h1 | h2)
            · rw [h1] at hflag
              exact absurd hflag (by decide)
            · exact absurd h2 ho
          · rintro ⟨-, -, hcc⟩
            exact absurd hB (not_lt.mpr hcc)
        · rename_i hB
          have hcc : countCorrect (markCorrect
              (runLines initState (l :: ls)).options
              (runLines initState (l :: ls)).correctLetters) ≤ 1 :=
            not_lt.mp hB
          refine ⟨⟨fun hh => absurd hh (by decide), ?_⟩,
            ⟨fun hh => absurd hh (by decide), ?_⟩,
            ⟨fun _ => ⟨hflag, ho, hcc⟩, fun _ => rfl⟩⟩
          · rintro (h1 | h2)
            · rw [h1] at hflag
              exact absurd hflag (by decide)
            · exact absurd h2 ho
          · rintro ⟨-, -, hcc2⟩
            exact absurd hcc2 hB

/-- Counterexample for claim C1 as stated: the block `c1cexLines` (options but
no correct-answer line) yields an `MC` question with zero marked-correct
options, so the SingleSelect biconditional (`MC` iff exactly one correct and
not flagged) fails; `c1BicondCheck` packages the claim's three biconditionals. -/
theorem claimC1_counterexample :
    c1BicondCheck (parseQuestion c1cexLines 1) (saFlag c1cexLines) = false := by
  decide

/-- Witness for the amended claim C1 at the concrete block `c1cexLines`. -/
theorem claimC1_witness :
    parseQuestion c1cexLines 1 = some c1wQ ∧
    (((c1wQ.qtype = saStr) ↔ (saFlag c1cexLines = true ∨ c1wQ.options = [])) ∧
      ((c1wQ.qtype = msStr) ↔ (saFlag c1cexLines = false ∧ c1wQ.options ≠ [] ∧
        1 < countCorrect c1wQ.options)) ∧
      ((c1wQ.qtype = mcStr) ↔ (saFlag c1cexLines = false ∧ c1wQ.options ≠ [] ∧
        countCorrect c1wQ.options ≤ 1))) :=
  ⟨by decide, claimC1_amended c1cexLines 1 c1wQ (by decide)⟩

/-- An option line always carries a letter in `A`–`F`. -/
theorem matchOption_letterAF {s : List Char} {c : Char} {t : List Char}
    (h : matchOption s = some (c, t)) : letterAF c = true := by
  cases s with
  | nil => simp [matchOption] at h
  | cons a rest =>
    cases rest with
    | nil => simp [matchOption] at h
    | cons d rest2 =>
      simp only [matchOption] at h
      split at h
      · split at h
        · simp at h
        · simp only [Option.some.injEq, Prod.mk.injEq] at h
          obtain ⟨hc, -⟩ := h
          subst hc
          rename_i hcond _
          exact hcond.1
      · simp at h

/-- One parser step either leaves the options unchanged or appends one option
recognized by the option-line pattern. -/
theorem stepLine_options (s : QState) (l : Line) :
    (stepLine s l).options = s.options ∨
    ∃ c t, matchOption (pyStrip l) = some (c, t) ∧
      (stepLine s l).options = s.options ++ [⟨c, t, false⟩] := by
  simp only [stepLine]
  repeat' split
  all_goals try (left; rfl)
  rename_i lt heq
  right
  exact ⟨lt.1, lt.2, heq, rfl⟩

/-- Every option accumulated by the parser loop has a letter in `A`–`F`. -/
theorem runLines_options_letters :
    ∀ (lines : List Line) (s : QState),
      (∀ o ∈ s.options, letterAF o.letter = true) →
      ∀ o ∈ (runLines s lines).options, letterAF o.letter = true := by
  intro lines
  induction lines with
  | nil => intro s h; exact h
  | cons l ls ih =>
    intro s h
    apply ih
    intro o ho
    rcases stepLine_options s l with heq | ⟨c, t, hm, heq⟩
    · rw [heq] at ho
      exact h o ho
    · rw [heq] at ho
      rcases List.mem_append.mp ho with ho | ho
      · exact h o ho
      · have : o = ⟨c, t, false⟩ := by simpa using ho
        rw [this]
        exact matchOption_letterAF hm

/-- The options field of a parsed question is the marked option list of the
final loop state. -/
theorem parseQuestion_options {lines : List Line} {n : Nat} {q : Question}
    (h : parseQuestion lines n = some q) :
    q.options = markCorrect (runLines initState lines).options
      (runLines initState lines).correctLetters := by
  cases lines with
  | nil => simp [parseQuestion] at h
  | cons l ls =>
    simp only [parseQuestion] at h
    split at h
    · exact absurd h (by simp)
    · simp only [Option.some.injEq] at h
      subst h
      rfl

/-- Marking correctness does not change an option's letter. -/
theorem markCorrect_letters {o : Opt} {opts : List Opt} {letters : List Char}
    (h : o ∈ markCorrect opts letters) : ∃ p ∈ opts, o.letter = p.letter := by
  simp only [markCorrect, List.mem_map] at h
  obtain ⟨p, hp, he⟩ := h
  refine ⟨p, hp, ?_⟩
  by_cases hm : p.letter ∈ letters
  · rw [if_pos hm] at he
    rw [← he]
  · rw [if_neg hm] at he
    rw [← he]

/-- A letter in `A`–`F` is one of the six characters `A B C D E F`. -/
theorem mem_abcdef_of_letterAF (c : Char) (h : letterAF c = true) :
    c ∈ abcdef := by
  simp only [letterAF, Bool.and_eq_true, decide_eq_true_eq] at h
  obtain ⟨h1, h2⟩ := h
  have hv1 : 65 ≤ c.toNat := h1
  have hv2 : c.toNat ≤ 70 := h2
  have hc : Char.ofNat c.toNat = c := Char.ofNat_toNat c
  have hcases : c.toNat = 65 ∨ c.toNat = 66 ∨ c.toNat = 67 ∨ c.toNat = 68 ∨
      c.toNat = 69 ∨ c.toNat = 70 := by omega
  rcases hcases with h | h | h | h | h | h <;> rw [← hc, h] <;> decide

/-- Claim C3 (amended): every option letter of a parsed question is drawn from
`{A,B,C,D,E,F}` (uniqueness within a question is not enforced by the code). -/
theorem claimC3_amended :
    ∀ (lines : List Line) (n : Nat) (q : Question),
      parseQuestion lines n = some q →
      ∀ o ∈ q.options, o.letter ∈ abcdef := by
  intro lines n q h o ho
  rw [parseQuestion_options h] at ho
  obtain ⟨p, hp, he⟩ := markCorrect_letters ho
  rw [he]
  exact mem_abcdef_of_letterAF p.letter
    (runLines_options_letters lines initState (by simp [initState]) p hp)

/-- Counterexample for claim C3 as stated: the block `c3cexLines` repeats the
option letter `A`, so the parsed question's letters are not unique. -/
theorem claimC3_counterexample :
    optionLetters (parseQuestion c3cexLines 1) = ['A', 'A'] ∧
    ¬ (optionLetters (parseQuestion c3cexLines 1)).Nodup := by
  constructor
  · decide
  · decide

/-- Witness for the amended claim C3 at the concrete block `c3cexLines`. -/
theorem claimC3_witness :
    parseQuestion c3cexLines 1 = some c3wQ ∧
    (⟨'A', c3wOpt1S.toList, false⟩ : Opt) ∈ c3wQ.options ∧
    'A' ∈ abcdef :=
  ⟨by decide, by decide,
    claimC3_amended c3cexLines 1 c3wQ (by decide)
      ⟨'A', c3wOpt1S.toList, false⟩ (by decide)⟩

/-- Witness for claim C2 at a concrete correct-answers line. -/
theorem claimC2_witness :
    initState.inCode = false ∧
    saqPhraseIn (pyStrip c2line) = false ∧
    matchCorrect (pyStrip c2line) = some c2rem ∧
    (((stepLine initState c2line).correctLetters = standaloneLetters c2rem ∧
      ((stepLine initState c2line).correctLetters = [] →
        (stepLine initState c2line).shortAnswerText = c2rem) ∧
      ((stepLine initState c2line).correctLetters ≠ [] →
        (stepLine initState c2line).shortAnswerText =
          initState.shortAnswerText)) ∧
      findLetters c2rem false = standaloneLetters c2rem) :=
  ⟨rfl, by decide, by decide,
    claimC2 initState c2line c2rem rfl (by decide) (by decide)⟩

/-! ### Lemmas about the quiz-file loop -/

theorem mem_flushLoop {q : Question} {block : List Line} {num : Nat}
    {acc : List Question} (h : q ∈ flushLoop block num acc) :
    q ∈ acc ∨ parseQuestion block num = some q := by
  unfold flushLoop at h
  cases block with
  | nil => exact Or.inl h
  | cons b bs =>
    dsimp only at h
    by_cases hn : 0 < num
    · rw [if_pos hn] at h
      cases hp : parseQuestion (b :: bs) num with
      | none => rw [hp] at h; exact Or.inl h
      | some q' =>
        rw [hp] at h
        dsimp only at h
        rcases List.mem_append.mp h with h | h
        · exact Or.inl h
        · right
          have hq : q = q' := by simpa using h
          rw [hq]
    · rw [if_neg hn] at h
      exact Or.inl h

theorem mem_finishQuiz {q : Question} {acc : List Question} {block : List Line}
    {num : Nat} (h : q ∈ finishQuiz (acc, block, num)) :
    q ∈ acc ∨ parseQuestion block num = some q := by
  unfold finishQuiz at h
  dsimp only at h
  cases block with
  | nil => exact Or.inl h
  | cons b bs =>
    dsimp only at h
    by_cases hn : 0 < num
    · rw [if_pos hn] at h
      cases hp : parseQuestion (b :: bs) num with
      | none => rw [hp] at h; exact Or.inl h
      | some q' =>
        rw [hp] at h
        dsimp only at h
        by_cases hg : dedupGuard acc q' = true
        · rw [if_pos hg] at h
          rcases List.mem_append.mp h with h | h
          · exact Or.inl h
          · right
            have hq : q = q' := by simpa using h
            rw [hq]
        · rw [if_neg hg] at h
          exact Or.inl h
    · rw [if_neg hn] at h
      exact Or.inl h

theorem mem_quizLoop {q : Question} :
    ∀ (ls : List Line) (block : List Line) (num : Nat) (inQ : Bool)
      (acc : List Question), q ∈ (quizLoop ls block num inQ acc).1 →
      q ∈ acc ∨ ∃ b m, parseQuestion b m = some q := by
  intro ls
  induction ls with
  | nil => intro block num inQ acc h; exact Or.inl h
  | cons l rest ih =>
    intro block num inQ acc h
    unfold quizLoop at h
    split at h
    · rcases ih _ _ _ _ h with h | h
      · rcases mem_flushLoop h with h | h
        · exact Or.inl h
        · exact Or.inr ⟨block, num, h⟩
      · exact Or.inr h
    · split at h
      · rcases mem_flushLoop h with h | h
        · exact Or.inl h
        · exact Or.inr ⟨block, num, h⟩
      · split at h
        · exact ih _ _ _ _ h
        · exact ih _ _ _ _ h

theorem mem_parseQuizLines {q : Question} {lines : List Line}
    (h : q ∈ parseQuizLines lines) : ∃ b m, parseQuestion b m = some q := by
  unfold parseQuizLines at h
  obtain ⟨acc, block, num, heq⟩ :
      ∃ acc block num, quizLoop lines [] 0 false [] = (acc, block, num) :=
    ⟨_, _, _, rfl⟩
  rw [heq] at h
  rcases mem_finishQuiz h with h | h
  · rcases mem_quizLoop lines [] 0 false [] (by rw [heq]; exact h) with h | h
    · simp at h
    · exact h
  · exact ⟨block, num, h⟩

theorem bool_eq_false_of_not {b : Bool} (h : ¬ b = true) : b = false := by
  cases b
  · rfl
  · exact absurd rfl h

theorem quizLoop_header {l : Line} {rest cur : List Line} {num : Nat}
    {inQ : Bool} {acc : List Question} (h : isQHeaderLine l = true) :
    quizLoop (l :: rest) cur num inQ acc =
      quizLoop rest [l] (num + 1) true (flushLoop cur num acc) := by
  simp [quizLoop, h]

theorem quizLoop_trailer {l : Line} {rest cur : List Line} {num : Nat}
    {inQ : Bool} {acc : List Question} (h1 : isQHeaderLine l = false)
    (h2 : isTrailerLine l = true) :
    quizLoop (l :: rest) cur num inQ acc = (flushLoop cur num acc, cur, num) := by
  simp [quizLoop, h1, h2]

theorem quizLoop_body {l : Line} {rest cur : List Line} {num : Nat}
    {acc : List Question} (h1 : isQHeaderLine l = false)
    (h2 : isTrailerLine l = false) :
    quizLoop (l :: rest) cur num true acc =
      quizLoop rest (cur ++ [l]) num true acc := by
  simp [quizLoop, h1, h2]

theorem quizLoop_skip {l : Line} {rest cur : List Line} {num : Nat}
    {acc : List Question} (h1 : isQHeaderLine l = false)
    (h2 : isTrailerLine l = false) :
    quizLoop (l :: rest) cur num false acc =
      quizLoop rest cur num false acc := by
  simp [quizLoop, h1, h2]

theorem splitAux_header {l : Line} {rest cur : List Line}
    (h : isQHeaderLine l = true) :
    splitAux (l :: rest) cur = cur :: splitAux rest [l] := by
  simp [splitAux, h]

theorem splitAux_trailer {l : Line} {rest cur : List Line}
    (h1 : isQHeaderLine l = false) (h2 : isTrailerLine l = true) :
    splitAux (l :: rest) cur = [cur] := by
  simp [splitAux, h1, h2]

theorem splitAux_body {l : Line} {rest cur : List Line}
    (h1 : isQHeaderLine l = false) (h2 : isTrailerLine l = false) :
    splitAux (l :: rest) cur = splitAux rest (cur ++ [l]) := by
  simp [splitAux, h1, h2]

theorem flushLoop_eq {block : List Line} {num : Nat} (acc : List Question)
    (h1 : block ≠ []) (h2 : 0 < num) :
    flushLoop block num acc = acc ++ (parseQuestion block num).toList := by
  cases block with
  | nil => exact absurd rfl h1
  | cons b bs =>
    unfold flushLoop
    dsimp only
    rw [if_pos h2]
    cases hp : parseQuestion (b :: bs) num
    · simp
    · simp

theorem fmEnum_cons (n : Nat) (b : List Line) (bs : List (List Line)) :
    fmEnum n (b :: bs) = (parseQuestion b n).toList ++ fmEnum (n + 1) bs := by
  rw [fmEnum.eq_def]
  dsimp only
  cases hp : parseQuestion b n <;> simp

theorem fmEnum_num_ge :
    ∀ (bs : List (List Line)) (n : Nat) (q : Question),
      q ∈ fmEnum n bs → n ≤ q.num := by
  intro bs
  induction bs with
  | nil => intro n q h; simp [fmEnum] at h
  | cons b bs ih =>
    intro n q h
    rw [fmEnum_cons] at h
    rcases List.mem_append.mp h with h | h
    · cases hp : parseQuestion b n with
      | none => rw [hp] at h; simp at h
      | some q' =>
        rw [hp] at h
        have hq : q = q' := by simpa using h
        rw [hq, parseQuestion_num hp]
    · exact Nat.le_of_succ_le (ih (n + 1) q h)

theorem fmEnum_pairwise :
    ∀ (bs : List (List Line)) (n : Nat),
      ((fmEnum n bs).map Question.num).Pairwise (· < ·) := by
  intro bs
  induction bs with
  | nil => intro n; simp [fmEnum]
  | cons b bs ih =>
    intro n
    rw [fmEnum_cons]
    cases hp : parseQuestion b n with
    | none => simpa using ih (n + 1)
    | some q' =>
      simp only [Option.toList_some, List.singleton_append, List.map_cons]
      refine List.Pairwise.cons ?_ (ih (n + 1))
      intro m hm
      simp only [List.mem_map] at hm
      obtain ⟨p, hp2, rfl⟩ := hm
      have h1 := fmEnum_num_ge bs (n + 1) p hp2
      have h2 := parseQuestion_num hp
      omega

theorem mem_of_getLast?_q :
    ∀ (l : List Question) (a : Question), l.getLast? = some a → a ∈ l := by
  intro l
  induction l with
  | nil => intro a h; simp at h
  | cons x xs ih =>
    intro a h
    cases xs with
    | nil =>
      have : x = a := by simpa using h
      simp [this]
    | cons y ys =>
      rw [List.getLast?_cons_cons] at h
      exact List.mem_cons_of_mem x (ih a h)

/-- Main loop refinement: once inside the questions region with a nonempty
current block, the loop followed by the final-block handling produces exactly
the numbered parse of the remaining blocks (the guard prevents the final block
from being emitted twice). -/
theorem quizLoop_main :
    ∀ (rest : List Line) (cur : List Line) (num : Nat) (acc : List Question),
      cur ≠ [] → 0 < num → (∀ p ∈ acc, p.num < num) →
      finishQuiz (quizLoop rest cur num true acc) =
        acc ++ fmEnum num (splitAux rest cur) := by
  intro rest
  induction rest with
  | nil =>
    intro cur num acc hc hn hinv
    show finishQuiz (acc, cur, num) = _
    rw [show splitAux [] cur = [cur] from rfl, fmEnum_cons,
      show fmEnum (num + 1) [] = [] from rfl, List.append_nil]
    unfold finishQuiz
    dsimp only
    cases cur with
    | nil => exact absurd rfl hc
    | cons c cs =>
      dsimp only
      rw [if_pos hn]
      cases hp : parseQuestion (c :: cs) num with
      | none => simp
      | some q =>
        dsimp only
        have hguard : dedupGuard acc q = true := by
          unfold dedupGuard
          cases hl : acc.getLast? with
          | none => rfl
          | some p =>
            have hpm : p ∈ acc := mem_of_getLast?_q acc p hl
            have hlt := hinv p hpm
            have hq := parseQuestion_num hp
            have hne : p.num ≠ q.num := by omega
            simp [hne]
        rw [if_pos hguard]
        simp
  | cons l rest ih =>
    intro cur num acc hc hn hinv
    by_cases hH : isQHeaderLine l = true
    · rw [quizLoop_header hH, splitAux_header hH, fmEnum_cons,
        flushLoop_eq acc hc hn]
      rw [ih [l] (num + 1) (acc ++ (parseQuestion cur num).toList)
        (by simp) (by omega) ?_]
      · rw [List.append_assoc]
      · intro p hp
        rcases List.mem_append.mp hp with hp | hp
        · exact Nat.lt_succ_of_lt (hinv p hp)
        · cases hq : parseQuestion cur num with
          | none => rw [hq] at hp; simp at hp
          | some q' =>
            rw [hq] at hp
            have he : p = q' := by simpa using hp
            rw [he, parseQuestion_num hq]
            omega
    · have hH' : isQHeaderLine l = false := bool_eq_false_of_not hH
      by_cases hT : isTrailerLine l = true
      · rw [quizLoop_trailer hH' hT, splitAux_trailer hH' hT, fmEnum_cons,
          show fmEnum (num + 1) [] = [] from rfl, List.append_nil,
          flushLoop_eq acc hc hn]
        unfold finishQuiz
        dsimp only
        cases cur with
        | nil => exact absurd rfl hc
        | cons c cs =>
          dsimp only
          rw [if_pos hn]
          cases hp : parseQuestion (c :: cs) num with
          | none => simp
          | some q =>
            dsimp only
            have hguard : dedupGuard (acc ++ [q]) q = false := by
              unfold dedupGuard
              rw [List.getLast?_concat]
              simp
            rw [if_neg (by simp [hguard])]
      · have hT' : isTrailerLine l = false := bool_eq_false_of_not hT
        rw [quizLoop_body hH' hT', splitAux_body hH' hT']
        exact ih (cur ++ [l]) num acc (by simp) hn hinv

/-- Refinement: `parse_quiz_file` equals the declarative split-then-parse
pipeline, each block parsed at most once, numbered from 1 in document order. -/
theorem parseQuiz_eq_questionsOf :
    ∀ (lines : List Line), parseQuizLines lines = questionsOf lines := by
  intro lines
  induction lines with
  | nil => rfl
  | cons l rest ih =>
    by_cases hH : isQHeaderLine l = true
    · show finishQuiz (quizLoop (l :: rest) [] 0 false []) = _
      rw [quizLoop_header hH, show flushLoop [] 0 [] = [] from rfl,
        quizLoop_main rest [l] 1 [] (by simp) (by omega) (by simp)]
      have hsb : splitBlocks (l :: rest) = splitAux rest [l] := by
        simp [splitBlocks, skipPreamble, hH]
      show _ = fmEnum 1 (splitBlocks (l :: rest))
      rw [hsb]
      simp
    · have hH' : isQHeaderLine l = false := bool_eq_false_of_not hH
      by_cases hT : isTrailerLine l = true
      · show finishQuiz (quizLoop (l :: rest) [] 0 false []) = _
        rw [quizLoop_trailer hH' hT]
        have hsb : splitBlocks (l :: rest) = [] := by
          simp [splitBlocks, skipPreamble, hH', hT]
        show _ = fmEnum 1 (splitBlocks (l :: rest))
        rw [hsb]
        rfl
      · have hT' : isTrailerLine l = false := bool_eq_false_of_not hT
        show finishQuiz (quizLoop (l :: rest) [] 0 false []) = _
        rw [quizLoop_skip hH' hT']
        have hsb : splitBlocks (l :: rest) = splitBlocks rest := by
          simp [splitBlocks, skipPreamble, hH', hT']
        show _ = fmEnum 1 (splitBlocks (l :: rest))
        rw [hsb]
        exact ih

theorem not_trailer_of_qheader {l : Line} (h : isQHeaderLine l = true) :
    isTrailerLine l = false := by
  unfold isQHeaderLine isQHeader at h
  unfold isTrailerLine isTrailer
  obtain ⟨-, h2⟩ := (Bool.and_eq_true _ _).mp h
  simpa using h2

theorem headerCount_cons_trailer {l : Line} {rest : List Line}
    (hT : isTrailerLine l = true) : headerCount (l :: rest) = 0 := by
  unfold headerCount
  rw [List.takeWhile_cons]
  simp [hT]

theorem headerCount_cons_not_trailer {l : Line} {rest : List Line}
    (hT : isTrailerLine l = false) :
    headerCount (l :: rest) =
      headerCount rest + (if isQHeaderLine l = true then 1 else 0) := by
  unfold headerCount
  rw [List.takeWhile_cons]
  simp [hT, List.countP_cons]

theorem splitAux_length : ∀ (rest cur : List Line),
    (splitAux rest cur).length = 1 + headerCount rest := by
  intro rest
  induction rest with
  | nil => intro cur; rfl
  | cons l rest ih =>
    intro cur
    by_cases hH : isQHeaderLine l = true
    · rw [splitAux_header hH, List.length_cons, ih [l],
        headerCount_cons_not_trailer (not_trailer_of_qheader hH)]
      simp [hH]
      omega
    · have hH' : isQHeaderLine l = false := bool_eq_false_of_not hH
      by_cases hT : isTrailerLine l = true
      · rw [splitAux_trailer hH' hT, headerCount_cons_trailer hT]
        rfl
      · have hT' : isTrailerLine l = false := bool_eq_false_of_not hT
        rw [splitAux_body hH' hT', ih (cur ++ [l]),
          headerCount_cons_not_trailer hT']
        simp [hH']

/-- The number of blocks is the number of question headers before the trailer. -/
theorem headerCount_eq_splitBlocks :
    ∀ (lines : List Line), headerCount lines = (splitBlocks lines).length := by
  intro lines
  induction lines with
  | nil => rfl
  | cons l rest ih =>
    by_cases hH : isQHeaderLine l = true
    · have hsb : splitBlocks (l :: rest) = splitAux rest [l] := by
        simp [splitBlocks, skipPreamble, hH]
      rw [hsb, splitAux_length rest [l],
        headerCount_cons_not_trailer (not_trailer_of_qheader hH)]
      simp [hH]
      omega
    · have hH' : isQHeaderLine l = false := bool_eq_false_of_not hH
      by_cases hT : isTrailerLine l = true
      · have hsb : splitBlocks (l :: rest) = [] := by
          simp [splitBlocks, skipPreamble, hH', hT]
        rw [hsb, headerCount_cons_trailer hT]
        rfl
      · have hT' : isTrailerLine l = false := bool_eq_false_of_not hT
        have hsb : splitBlocks (l :: rest) = splitBlocks rest := by
          simp [splitBlocks, skipPreamble, hH', hT']
        rw [hsb, headerCount_cons_not_trailer hT']
        simp [hH', ih]

theorem fmEnum_length : ∀ (bs : List (List Line)) (n : Nat),
    (fmEnum n bs).length ≤ bs.length ∧
    ((fmEnum n bs).length < bs.length ↔ someDiscarded n bs = true) := by
  intro bs
  induction bs with
  | nil => intro n; simp [fmEnum, someDiscarded]
  | cons b bs ih =>
    intro n
    rw [fmEnum_cons]
    obtain ⟨h1, h2⟩ := ih (n + 1)
    cases hp : parseQuestion b n with
    | none =>
      simp only [Option.toList_none, List.nil_append, List.length_cons]
      refine ⟨by omega, ?_, fun _ => by omega⟩
      intro _
      unfold someDiscarded
      rw [hp]
      simp
    | some q =>
      simp only [Option.toList_some, List.singleton_append, List.length_cons]
      refine ⟨by omega, ?_, ?_⟩
      · intro hlt
        unfold someDiscarded
        rw [hp]
        simp only [Option.isNone_some, Bool.false_or]
        exact h2.mp (by omega)
      · intro hd
        unfold someDiscarded at hd
        rw [hp] at hd
        simp only [Option.isNone_some, Bool.false_or] at hd
        have := h2.mpr hd
        omega

/-- Claim C5: the number of emitted questions is at most the number of
level-2 question headers before the trailer, with strict inequality exactly
when some block is discarded (`parse_question` returns `None` for it). -/
theorem claimC5 :
    ∀ (lines : List Line),
      (parseQuizLines lines).length ≤ headerCount lines ∧
      ((parseQuizLines lines).length < headerCount lines ↔
        someDiscarded 1 (splitBlocks lines) = true) := by
  intro lines
  rw [parseQuiz_eq_questionsOf, headerCount_eq_splitBlocks]
  exact fmEnum_length (splitBlocks lines) 1

/-- Witness for claim C5 at a concrete document with a discarded middle block. -/
theorem claimC5_witness :
    ((parseQuizLines c5doc).length ≤ headerCount c5doc ∧
      ((parseQuizLines c5doc).length < headerCount c5doc ↔
        someDiscarded 1 (splitBlocks c5doc) = true)) ∧
    (parseQuizLines c5doc).length = 2 ∧ headerCount c5doc = 3 :=
  ⟨claimC5 c5doc, by decide, by decide⟩

/-- Claim C10: the sequence numbers of the emitted questions are strictly
increasing in list order, and the output is the numbered parse of the blocks,
each block contributing at most one question (even though the final block may
be handed to `parse_question` twice). -/
theorem claimC10 :
    ∀ (lines : List Line),
      ((parseQuizLines lines).map Question.num).Pairwise (· < ·) ∧
      parseQuizLines lines = questionsOf lines := by
  intro lines
  refine ⟨?_, parseQuiz_eq_questionsOf lines⟩
  rw [parseQuiz_eq_questionsOf]
  exact fmEnum_pairwise (splitBlocks lines) 1

/-- Witness for claim C10 at a concrete two-question document. -/
theorem claimC10_witness :
    (((parseQuizLines c4pre).map Question.num).Pairwise (· < ·) ∧
      parseQuizLines c4pre = questionsOf c4pre) ∧
    (parseQuizLines c4pre).map Question.num = [1, 2] :=
  ⟨claimC10 c4pre, by decide⟩

theorem not_qheader_of_trailer {l : Line} (h : isTrailerLine l = true) :
    isQHeaderLine l = false := by
  unfold isTrailerLine isTrailer at h
  unfold isQHeaderLine isQHeader
  rw [h]
  simp

theorem quizLoop_stops_at_trailer {t : Line} {suffix : List Line}
    (ht : isTrailerLine t = true) :
    ∀ (pre : List Line) (block : List Line) (num : Nat) (inQ : Bool)
      (acc : List Question), (∀ l ∈ pre, isTrailerLine l = false) →
      quizLoop (pre ++ t :: suffix) block num inQ acc =
        quizLoop (pre ++ [t]) block num inQ acc := by
  intro pre
  induction pre with
  | nil =>
    intro block num inQ acc _
    rw [List.nil_append, List.nil_append,
      quizLoop_trailer (not_qheader_of_trailer ht) ht,
      quizLoop_trailer (not_qheader_of_trailer ht) ht]
  | cons p pre ih =>
    intro block num inQ acc hall
    have hp : isTrailerLine p = false := hall p (by simp)
    have hrest : ∀ l ∈ pre, isTrailerLine l = false :=
      fun l hl => hall l (by simp [hl])
    rw [List.cons_append, List.cons_append]
    by_cases hH : isQHeaderLine p = true
    · rw [quizLoop_header hH, quizLoop_header hH]
      exact ih _ _ _ _ hrest
    · have hH' : isQHeaderLine p = false := bool_eq_false_of_not hH
      cases inQ with
      | true =>
        rw [quizLoop_body hH' hp, quizLoop_body hH' hp]
        exact ih _ _ _ _ hrest
      | false =>
        rw [quizLoop_skip hH' hp, quizLoop_skip hH' hp]
        exact ih _ _ _ _ hrest

/-- Claim C4: a trailer header stops scanning entirely — lines after it never
affect the output — and all valid question blocks before it are still emitted
(spec Scenario 5: three valid headers then a trailer yield exactly three
questions). -/
theorem claimC4 :
    (∀ (pre : List Line) (t : Line) (suffix : List Line),
      (∀ l ∈ pre, isTrailerLine l = false) → isTrailerLine t = true →
      parseQuizLines (pre ++ t :: suffix) = parseQuizLines (pre ++ [t])) ∧
    (parseQuizLines scenario5).length = 3 := by
  constructor
  · intro pre t suffix hall ht
    unfold parseQuizLines
    rw [quizLoop_stops_at_trailer ht pre [] 0 false [] hall]
  · decide

/-- Witness for claim C4 at a concrete document and trailer. -/
theorem claimC4_witness :
    (∀ l ∈ c4pre, isTrailerLine l = false) ∧ isTrailerLine c4trailer = true ∧
    parseQuizLines (c4pre ++ c4trailer :: c4suf) =
      parseQuizLines (c4pre ++ [c4trailer]) :=
  ⟨by decide, by decide,
    claimC4.1 c4pre c4trailer c4suf (by decide) (by decide)⟩

theorem fmEnum_getLast :
    ∀ (bs : List (List Line)) (n : Nat) (b : List Line) (q : Question),
      bs.getLast? = some b → parseQuestion b (n + bs.length - 1) = some q →
      (fmEnum n bs).getLast? = some q := by
  intro bs
  induction bs with
  | nil => intro n b q h _; simp at h
  | cons b0 bs ih =>
    intro n b q hlast hp
    cases bs with
    | nil =>
      have hb : b0 = b := by simpa using hlast
      subst hb
      have hp' : parseQuestion b0 n = some q := by
        simpa using hp
      show (fmEnum n [b0]).getLast? = some q
      rw [fmEnum_cons, hp']
      rfl
    | cons b1 bs' =>
      rw [List.getLast?_cons_cons] at hlast
      have hp' : parseQuestion b ((n + 1) + (b1 :: bs').length - 1) = some q := by
        have harith : (n + 1) + (b1 :: bs').length - 1 =
            n + (b0 :: b1 :: bs').length - 1 := by
          simp only [List.length_cons]
          omega
        rw [harith]
        exact hp
      have htail := ih (n + 1) b q hlast hp'
      rw [fmEnum_cons]
      have hne : fmEnum (n + 1) (b1 :: bs') ≠ [] := by
        intro hcon
        rw [hcon] at htail
        simp at htail
      rw [List.getLast?_append_of_ne_nil _ hne]
      exact htail

/-- Claim C7: in a document without a trailer header, the final open block is
still parsed; if it yields a question, that question appears exactly once, at
the end of the output. -/
theorem claimC7 :
    ∀ (lines : List Line) (b : List Line) (q : Question),
      (∀ l ∈ lines, isTrailerLine l = false) →
      (splitBlocks lines).getLast? = some b →
      parseQuestion b (splitBlocks lines).length = some q →
      (parseQuizLines lines).getLast? = some q ∧
      (parseQuizLines lines).count q = 1 := by
  intro lines b q _ hlast hp
  rw [parseQuiz_eq_questionsOf]
  have hp' : parseQuestion b (1 + (splitBlocks lines).length - 1) = some q := by
    have : 1 + (splitBlocks lines).length - 1 = (splitBlocks lines).length := by
      omega
    rw [this]
    exact hp
  have hlastq : (fmEnum 1 (splitBlocks lines)).getLast? = some q :=
    fmEnum_getLast (splitBlocks lines) 1 b q hlast hp'
  refine ⟨hlastq, ?_⟩
  have hmem : q ∈ fmEnum 1 (splitBlocks lines) :=
    mem_of_getLast?_q _ q hlastq
  have hnodup : (fmEnum 1 (splitBlocks lines)).Nodup := by
    have hpw := fmEnum_pairwise (splitBlocks lines) 1
    have : ((fmEnum 1 (splitBlocks lines)).map Question.num).Nodup :=
      hpw.imp (fun h => Nat.ne_of_lt h)
    exact List.Nodup.of_map Question.num this
  exact List.count_eq_one_of_mem hnodup hmem

/-- Witness for claim C7 at a concrete trailer-free document. -/
theorem claimC7_witness :
    (∀ l ∈ c4pre, isTrailerLine l = false) ∧
    (splitBlocks c4pre).getLast? = some c7lastBlock ∧
    parseQuestion c7lastBlock (splitBlocks c4pre).length = some c7wQ ∧
    ((parseQuizLines c4pre).getLast? = some c7wQ ∧
      (parseQuizLines c4pre).count c7wQ = 1) :=
  ⟨by decide, by decide, by decide,
    claimC7 c4pre c7lastBlock c7wQ (by decide) (by decide) (by decide)⟩

/-- Claim C6: the empty line-group is discarded; a group whose accumulated body
text trims to the empty string is discarded; consequently no question with
empty body ever appears in the output of `parse_quiz_file`. -/
theorem claimC6 :
    (∀ n : Nat, parseQuestion [] n = none) ∧
    (∀ (lines : List Line) (n : Nat), questionBody lines = [] →
      parseQuestion lines n = none) ∧
    (∀ (doc : List Line) (q : Question), q ∈ parseQuizLines doc →
      q.text ≠ []) := by
  refine ⟨fun n => rfl, fun lines n h => parseQuestion_none_of_empty_body h,
    fun doc q h => ?_⟩
  obtain ⟨b, m, hb⟩ := mem_parseQuizLines h
  exact (parseQuestion_text hb).2

/-- Witness for claim C6: an empty group, a header-only block (title set but
body empty), and a question emitted from a concrete document. -/
theorem claimC6_witness :
    parseQuestion ([] : List Line) 7 = none ∧
    (questionBody c6block = [] ∧ parseQuestion c6block 3 = none) ∧
    (c6wQ ∈ parseQuizLines c4pre ∧ c6wQ.text ≠ []) :=
  ⟨claimC6.1 7, ⟨by decide, claimC6.2.1 c6block 3 (by decide)⟩,
    ⟨by decide, claimC6.2.2 c4pre c6wQ (by decide)⟩⟩

/-! ### Lemmas about the markup translator -/

/-- Counterexample for claim C8 as stated: `c8cexBody` has one properly fenced
region whose content contains no asterisk at all, yet the output still contains
a raw `**` marker — the unpaired `**` outside the fence survives every rewrite
pass, so the output contains raw markers that originated outside the fence. -/
theorem claimC8_counterexample :
    countChar '*' c8cexContent = 0 ∧
    (subFence c8cexBody).2 = [fmtCode c8cexContent] ∧
    hasSub starStar (formatQuestionText c8cexBody) = true :=
  ⟨by decide, by decide, by decide⟩

theorem scanSub_fuelIndep {t : List Char → Option (List Char × List Char)}
    (hcons : ∀ cs r tl, t cs = some (r, tl) → tl.length < cs.length) :
    ∀ (f1 : Nat) (cs : List Char) (f2 : Nat), cs.length < f1 → cs.length < f2 →
      scanSub t f1 cs = scanSub t f2 cs := by
  intro f1
  induction f1 with
  | zero => intro cs f2 h1 _; exact absurd h1 (by omega)
  | succ f ihf =>
    intro cs f2 h1 h2
    cases f2 with
    | zero => exact absurd h2 (by omega)
    | succ g =>
      cases cs with
      | nil => rfl
      | cons c rest =>
        simp only [List.length_cons] at h1 h2
        cases hm : t (c :: rest) with
        | some pr =>
          have hlt := hcons _ _ _ hm
          simp only [List.length_cons] at hlt
          simp only [scanSub, hm]
          exact congrArg (pr.1 ++ ·)
            (ihf pr.2 g (by omega) (by omega))
        | none =>
          simp only [scanSub, hm]
          exact congrArg (c :: ·) (ihf rest g (by omega) (by omega))

theorem scanS_nil (t : List Char → Option (List Char × List Char)) :
    scanS t [] = [] := rfl

theorem scanS_step {t : List Char → Option (List Char × List Char)}
    (hcons : ∀ cs r tl, t cs = some (r, tl) → tl.length < cs.length)
    {cs rep tail : List Char} (h : t cs = some (rep, tail)) :
    scanS t cs = rep ++ scanS t tail := by
  cases cs with
  | nil =>
    have := hcons _ _ _ h
    simp at this
  | cons c rest =>
    have hlt := hcons _ _ _ h
    simp only [List.length_cons] at hlt
    show scanSub t ((c :: rest).length + 1) (c :: rest) = _
    simp only [List.length_cons, scanSub, h]
    exact congrArg (rep ++ ·)
      (scanSub_fuelIndep hcons _ tail (tail.length + 1) (by omega) (by omega))

theorem scanS_skip {t : List Char → Option (List Char × List Char)} :
    ∀ (s r : List Char), (∀ i, i < s.length → t (s.drop i ++ r) = none) →
      scanS t (s ++ r) = s ++ scanS t r := by
  intro s
  induction s with
  | nil => intro r _; simp
  | cons c s ih =>
    intro r hall
    have h0 : t (c :: (s ++ r)) = none := by
      have := hall 0 (by simp)
      simpa using this
    show scanSub t (((c :: s) ++ r).length + 1) ((c :: s) ++ r) = _
    simp only [List.cons_append, List.length_cons, scanSub, List.append_eq, h0]
    have hrec : scanSub t ((s ++ r).length + 1) (s ++ r) = scanS t (s ++ r) := rfl
    rw [hrec, ih r (fun i hi => by
      have := hall (i + 1) (by simp only [List.length_cons]; omega)
      simpa using this)]

theorem scanS_skip_heads {t : List Char → Option (List Char × List Char)}
    {s r : List Char} (h : ∀ c ∈ s, ∀ cs, t (c :: cs) = none) :
    scanS t (s ++ r) = s ++ scanS t r := by
  apply scanS_skip
  intro i hi
  rw [List.drop_eq_getElem_cons hi]
  exact h _ (List.getElem_mem hi) _

theorem scanS_id_heads {t : List Char → Option (List Char × List Char)}
    {s : List Char} (h : ∀ c ∈ s, ∀ cs, t (c :: cs) = none) :
    scanS t s = s := by
  have h1 := @scanS_skip_heads t s [] h
  have h2 : scanS t [] = ([] : List Char) := rfl
  simp only [List.append_nil, h2] at h1
  exact h1

theorem takeWhile_append_stop {p : Char → Bool} :
    ∀ {w : List Char} {a : Char} {r : List Char},
      (∀ c ∈ w, p c = true) → p a = false →
      (w ++ a :: r).takeWhile p = w ∧ (w ++ a :: r).dropWhile p = a :: r := by
  intro w
  induction w with
  | nil =>
    intro a r _ ha
    simp [List.takeWhile_cons, List.dropWhile_cons, ha]
  | cons c w ih =>
    intro a r hw ha
    have hc : p c = true := hw c (by simp)
    obtain ⟨h1, h2⟩ := ih (fun d hd => hw d (by simp [hd])) ha
    simp only [List.cons_append, List.takeWhile_cons, List.dropWhile_cons, hc,
      if_true]
    exact ⟨by rw [h1], by rw [h2]⟩

theorem length_dropWhile_le_q (p : Char → Bool) :
    ∀ (l : List Char), (l.dropWhile p).length ≤ l.length := by
  intro l
  induction l with
  | nil => simp
  | cons c cs ih =>
    rw [List.dropWhile_cons]
    split
    · exact Nat.le_succ_of_le ih
    · simp

theorem tryBold_none {c : Char} {cs : List Char} (h : ¬ c = '*') :
    tryBold (c :: cs) = none := by
  cases cs with
  | nil => rfl
  | cons b rest =>
    unfold tryBold
    dsimp only
    rw [if_neg (fun hc => h hc.1)]

theorem tryBold_match {w r : List Char} (hw : w ≠ []) (hstar : '*' ∉ w) :
    tryBold ('*' :: '*' :: (w ++ '*' :: '*' :: r)) =
      some (strongOpen ++ w ++ strongClose, r) := by
  have hfun : ∀ c ∈ w, (fun c => !(c = '*')) c = true := by
    intro c hc
    simp only [Bool.not_eq_true', decide_eq_false_iff_not]
    exact fun he => hstar (he ▸ hc)
  have hstop : (fun c => !(c = '*')) '*' = false := by simp
  obtain ⟨h1, h2⟩ :=
    @takeWhile_append_stop (fun c => !(c = '*')) w '*' ('*' :: r) hfun hstop
  unfold tryBold
  dsimp only
  rw [if_pos ⟨rfl, rfl⟩]
  rw [show w ++ '*' :: '*' :: r = w ++ '*' :: ('*' :: r) from rfl, h1, h2]
  dsimp only
  rw [if_pos ⟨rfl, rfl, hw⟩]

theorem tryBold_consumes :
    ∀ {cs rep tail : List Char}, tryBold cs = some (rep, tail) →
      tail.length < cs.length := by
  intro cs rep tail h
  match cs with
  | [] => exact absurd h (by simp [tryBold])
  | [a] => exact absurd h (by simp [tryBold])
  | a :: b :: rest =>
    unfold tryBold at h
    dsimp only at h
    by_cases hab : a = '*' ∧ b = '*'
    · rw [if_pos hab] at h
      cases hdrop : rest.dropWhile (fun c => !(c = '*')) with
      | nil => rw [hdrop] at h; exact absurd h (by simp)
      | cons x xs =>
        cases xs with
        | nil => rw [hdrop] at h; exact absurd h (by simp)
        | cons y tail2 =>
          rw [hdrop] at h
          dsimp only at h
          by_cases hcond : x = '*' ∧ y = '*' ∧
              rest.takeWhile (fun c => !(c = '*')) ≠ []
          · rw [if_pos hcond] at h
            simp only [Option.some.injEq, Prod.mk.injEq] at h
            obtain ⟨-, htail⟩ := h
            subst htail
            have hlen := length_dropWhile_le_q (fun c => !(c = '*')) rest
            rw [hdrop] at hlen
            simp only [List.length_cons] at hlen ⊢
            omega
          · rw [if_neg hcond] at h
            exact absurd h (by simp)
    · rw [if_neg hab] at h
      exact absurd h (by simp)

theorem tryICode_none {c : Char} {cs : List Char} (h : ¬ c = tickChar) :
    tryICode (c :: cs) = none := by
  unfold tryICode
  dsimp only
  rw [if_neg h]

theorem tryICode_match {w r : List Char} (hw : w ≠ []) (ht : tickChar ∉ w) :
    tryICode (tickChar :: (w ++ tickChar :: r)) =
      some (codeOpen ++ w ++ codeClose, r) := by
  have hfun : ∀ c ∈ w, (fun c => !(c = tickChar)) c = true := by
    intro c hc
    simp only [Bool.not_eq_true', decide_eq_false_iff_not]
    exact fun he => ht (he ▸ hc)
  have hstop : (fun c => !(c = tickChar)) tickChar = false := by simp
  obtain ⟨h1, h2⟩ :=
    @takeWhile_append_stop (fun c => !(c = tickChar)) w tickChar r hfun hstop
  unfold tryICode
  dsimp only
  rw [if_pos rfl, h1, h2]
  dsimp only
  rw [if_neg hw]

theorem tryICode_consumes :
    ∀ {cs rep tail : List Char}, tryICode cs = some (rep, tail) →
      tail.length < cs.length := by
  intro cs rep tail h
  match cs with
  | [] => exact absurd h (by simp [tryICode])
  | a :: rest =>
    unfold tryICode at h
    dsimp only at h
    by_cases ha : a = tickChar
    · rw [if_pos ha] at h
      cases hdrop : rest.dropWhile (fun c => !(c = tickChar)) with
      | nil => rw [hdrop] at h; exact absurd h (by simp)
      | cons x xs =>
        rw [hdrop] at h
        dsimp only at h
        by_cases hcond : rest.takeWhile (fun c => !(c = tickChar)) = []
        · rw [if_pos hcond] at h
          exact absurd h (by simp)
        · rw [if_neg hcond] at h
          simp only [Option.some.injEq, Prod.mk.injEq] at h
          obtain ⟨-, htail⟩ := h
          subst htail
          have hlen := length_dropWhile_le_q (fun c => !(c = tickChar)) rest
          rw [hdrop] at hlen
          simp only [List.length_cons] at hlen ⊢
          omega
    · rw [if_neg ha] at h
      exact absurd h (by simp)

theorem tryRepl_none_head {p0 : Char} {prest rep : List Char} {c : Char}
    {cs : List Char} (h : ¬ c = p0) :
    tryRepl (p0 :: prest) rep (c :: cs) = none := by
  unfold tryRepl
  rw [if_neg]
  rintro ⟨-, hpre⟩
  simp only [List.isPrefixOf, Bool.and_eq_true, beq_iff_eq] at hpre
  exact h hpre.1.symm

theorem tryRepl_match {pat rep r : List Char} (hp : pat ≠ []) :
    tryRepl pat rep (pat ++ r) = some (rep, r) := by
  have hpre : pat.isPrefixOf (pat ++ r) = true := by
    rw [List.isPrefixOf_iff_prefix]
    exact List.prefix_append pat r
  unfold tryRepl
  rw [if_pos ⟨hp, hpre⟩, List.drop_left]

theorem tryRepl_consumes {pat rep : List Char} (hp : pat ≠ []) :
    ∀ {cs r tl : List Char}, tryRepl pat rep cs = some (r, tl) →
      tl.length < cs.length := by
  intro cs r tl h
  unfold tryRepl at h
  split at h
  · rename_i hc
    simp only [Option.some.injEq, Prod.mk.injEq] at h
    obtain ⟨-, htl⟩ := h
    have hpre : pat <+: cs := List.isPrefixOf_iff_prefix.mp hc.2
    have hlen : pat.length ≤ cs.length := hpre.length_le
    have hplen : 0 < pat.length := List.length_pos.mpr hp
    rw [← htl, List.length_drop]
    omega
  · simp at h

theorem scanSub_single (a : Char) (rep : List Char) :
    ∀ (cs : List Char) (fuel : Nat), cs.length < fuel →
      scanSub (tryRepl [a] rep) fuel cs = expandOn a rep cs := by
  intro cs
  induction cs with
  | nil =>
    intro fuel h
    cases fuel with
    | zero => exact absurd h (by omega)
    | succ f => rfl
  | cons c rest ih =>
    intro fuel h
    cases fuel with
    | zero => exact absurd h (by omega)
    | succ f =>
      simp only [List.length_cons] at h
      by_cases hc : c = a
      · subst hc
        have hm : tryRepl [c] rep (c :: rest) = some (rep, rest) :=
          tryRepl_match (by simp)
        simp only [scanSub, hm, expandOn, if_pos rfl]
        exact congrArg (rep ++ ·) (ih f (by omega))
      · have hm : tryRepl [a] rep (c :: rest) = none := tryRepl_none_head hc
        simp only [scanSub, hm, expandOn, if_neg hc]
        exact congrArg (fun x => [c] ++ x) (ih f (by omega))

theorem scanS_single (a : Char) (rep : List Char) (cs : List Char) :
    scanS (tryRepl [a] rep) cs = expandOn a rep cs :=
  scanSub_single a rep cs (cs.length + 1) (by omega)

theorem expandOn_append (a : Char) (rep : List Char) :
    ∀ (x y : List Char),
      expandOn a rep (x ++ y) = expandOn a rep x ++ expandOn a rep y := by
  intro x y
  induction x with
  | nil => rfl
  | cons c cs ih =>
    simp only [List.cons_append, expandOn, List.append_eq, ih,
      List.append_assoc]

theorem expandOn_of_not_mem {a : Char} {rep : List Char} :
    ∀ {s : List Char}, a ∉ s → expandOn a rep s = s := by
  intro s
  induction s with
  | nil => intro _; rfl
  | cons c cs ih =>
    intro h
    have hc : ¬ c = a := fun he => h (by simp [he])
    simp only [expandOn, if_neg hc, List.singleton_append, List.cons.injEq,
      true_and]
    exact ih (fun hm => h (by simp [hm]))

theorem mem_expandOn {x a : Char} {rep : List Char} :
    ∀ {s : List Char}, x ∈ expandOn a rep s → x ∈ rep ∨ x ∈ s := by
  intro s
  induction s with
  | nil => intro h; simp [expandOn] at h
  | cons c cs ih =>
    intro h
    simp only [expandOn] at h
    rcases List.mem_append.mp h with h | h
    · by_cases hc : c = a
      · rw [if_pos hc] at h
        exact Or.inl h
      · rw [if_neg hc] at h
        right
        simp at h
        simp [h]
    · rcases ih h with h | h
      · exact Or.inl h
      · right
        simp [h]

theorem countChar_append (x : Char) (a b : List Char) :
    countChar x (a ++ b) = countChar x a + countChar x b := by
  unfold countChar
  rw [List.countP_append]

theorem countChar_eq_zero_of_not_mem {x : Char} {s : List Char} (h : x ∉ s) :
    countChar x s = 0 := by
  unfold countChar
  rw [List.countP_eq_zero]
  intro b hb
  simp only [decide_eq_true_eq]
  exact fun he => h (he ▸ hb)

theorem countChar_cons (x c : Char) (cs : List Char) :
    countChar x (c :: cs) = countChar x cs + (if c = x then 1 else 0) := by
  unfold countChar
  rw [List.countP_cons]
  by_cases h : c = x
  · simp [h]
  · simp [h]

theorem countChar_singleton (x c : Char) :
    countChar x [c] = (if c = x then 1 else 0) := by
  rw [show [c] = c :: ([] : List Char) from rfl, countChar_cons]
  simp [countChar]

theorem countChar_expandOn {x a : Char} {rep : List Char} (hx : ¬ x = a)
    (hr : x ∉ rep) :
    ∀ (s : List Char), countChar x (expandOn a rep s) = countChar x s := by
  intro s
  induction s with
  | nil => rfl
  | cons c cs ih =>
    show countChar x ((if c = a then rep else [c]) ++ expandOn a rep cs) = _
    rw [countChar_append, ih, countChar_cons]
    by_cases hc : c = a
    · rw [if_pos hc, countChar_eq_zero_of_not_mem hr,
        if_neg (show ¬ c = x from fun he => hx (he.symm.trans hc))]
      omega
    · rw [if_neg hc, countChar_singleton]
      omega

theorem splitNl_ne_nil : ∀ (c : List Char), splitNl c ≠ [] := by
  intro c
  cases c with
  | nil => simp [splitNl]
  | cons ch rest =>
    unfold splitNl
    by_cases hc : ch = '\n'
    · rw [if_pos hc]
      simp
    · rw [if_neg hc]
      cases splitNl rest <;> simp

theorem countChar_joinBr {x : Char} (h : x ∉ brStr) :
    ∀ (ls : List (List Char)),
      countChar x (joinBr ls) = (ls.map (countChar x)).sum := by
  intro ls
  induction ls with
  | nil => rfl
  | cons l ls ih =>
    cases ls with
    | nil => simp [joinBr]
    | cons m rest =>
      show countChar x (l ++ brStr ++ joinBr (m :: rest)) = _
      rw [countChar_append, countChar_append, ih,
        countChar_eq_zero_of_not_mem h]
      simp only [List.map_cons, List.sum_cons]
      omega

theorem countChar_splitNl {x : Char} (hx : ¬ x = '\n') :
    ∀ (c : List Char), ((splitNl c).map (countChar x)).sum = countChar x c := by
  intro c
  induction c with
  | nil => rfl
  | cons ch rest ih =>
    unfold splitNl
    by_cases hc : ch = '\n'
    · rw [if_pos hc]
      simp only [List.map_cons, List.sum_cons, ih]
      have h0 : countChar x [] = 0 := rfl
      rw [h0]
      unfold countChar
      rw [List.countP_cons]
      have : ¬ (ch = x) := fun he => hx (he ▸ hc.symm ▸ rfl)
      simp [this]
    · rw [if_neg hc]
      cases hsp : splitNl rest with
      | nil => exact absurd hsp (splitNl_ne_nil rest)
      | cons p ps =>
        rw [hsp] at ih
        simp only [List.map_cons, List.sum_cons] at ih ⊢
        show countChar x (ch :: p) + (ps.map (countChar x)).sum =
          countChar x (ch :: rest)
        unfold countChar
        rw [List.countP_cons, List.countP_cons]
        unfold countChar at ih
        omega

theorem countChar_fmtCode {x : Char} (h1 : countChar x divOpen = 0)
    (h2 : countChar x divClose = 0) (h3 : x ∉ brStr) (h4 : x ∉ nbspStr)
    (h5 : ¬ x = ' ') (h6 : ¬ x = '\n') (c : List Char) :
    countChar x (fmtCode c) = countChar x c := by
  unfold fmtCode
  rw [countChar_append, countChar_append, h1, h2]
  have hline : ∀ l, countChar x (scanS (tryRepl spaceStr nbspStr) l) =
      countChar x l := by
    intro l
    rw [show spaceStr = [' '] from rfl, scanS_single]
    exact countChar_expandOn h5 h4 l
  rw [countChar_joinBr h3, List.map_map]
  have hmap : ((splitNl c).map
      (countChar x ∘ fun l => scanS (tryRepl spaceStr nbspStr) l)) =
      (splitNl c).map (countChar x) := by
    apply List.map_congr_left
    intro l _
    exact hline l
  rw [hmap, countChar_splitNl h6]
  omega

theorem hasTriple_cons (c : Char) (rest : List Char) :
    hasTriple (c :: rest) = (isTriplePre (c :: rest) || hasTriple rest) := by
  cases rest with
  | nil => rfl
  | cons b rest2 =>
    cases rest2 with
    | nil => rfl
    | cons d rest3 => rfl

theorem isTriplePre_drop_of_not_hasTriple :
    ∀ (cs : List Char), hasTriple cs = false →
      ∀ (i : Nat), isTriplePre (cs.drop i) = false := by
  intro cs
  induction cs with
  | nil => intro _ i; cases i <;> rfl
  | cons c rest ih =>
    intro h i
    rw [hasTriple_cons] at h
    obtain ⟨h1, h2⟩ := Bool.or_eq_false_iff.mp h
    cases i with
    | zero => exact h1
    | succ j => exact ih h2 j

theorem isTriplePre_long_append {x y z : Char} {d X : List Char} :
    isTriplePre ((x :: y :: z :: d) ++ X) = isTriplePre (x :: y :: z :: d) := by
  rfl

/-- The positional no-triple condition used by `splitTriple_pos`, derived from
the simple conditions: no triple inside the content and no trailing backtick. -/
theorem no_triple_before_close {c S : List Char} (h1 : hasTriple c = false)
    (h2 : c.getLast? ≠ some tickChar) :
    ∀ (i : Nat), i < c.length →
      isTriplePre (c.drop i ++ (tick3 ++ S)) = false := by
  intro i hi
  have hdrop : c.drop i ≠ [] := by
    intro hcon
    have hlen := List.drop_eq_nil_iff.mp hcon
    omega
  have hlast : (c.drop i).getLast? = c.getLast? := by
    have hsplit : c = c.take i ++ c.drop i := (List.take_append_drop i c).symm
    calc (c.drop i).getLast? = (c.take i ++ c.drop i).getLast? :=
          (List.getLast?_append_of_ne_nil _ hdrop).symm
      _ = c.getLast? := by rw [← hsplit]
  cases hd : c.drop i with
  | nil => exact absurd hd hdrop
  | cons x rest =>
    cases rest with
    | nil =>
      have hx : c.getLast? = some x := by
        rw [← hlast, hd]
        rfl
      have hxt : ¬ x = tickChar := fun he => h2 (he ▸ hx)
      show isTriplePre (x :: (tick3 ++ S)) = false
      simp [isTriplePre, tick3, hxt]
    | cons y rest2 =>
      cases rest2 with
      | nil =>
        have hy : c.getLast? = some y := by
          rw [← hlast, hd]
          rfl
        have hyt : ¬ y = tickChar := fun he => h2 (he ▸ hy)
        show isTriplePre (x :: y :: (tick3 ++ S)) = false
        simp [isTriplePre, tick3, hyt]
      | cons z rest3 =>
        have hpre : isTriplePre (c.drop i) = false :=
          isTriplePre_drop_of_not_hasTriple c h1 i
        rw [hd] at hpre
        rw [show (x :: y :: z :: rest3) ++ (tick3 ++ S) =
          x :: y :: z :: (rest3 ++ (tick3 ++ S)) from rfl]
        rw [show isTriplePre (x :: y :: z :: (rest3 ++ (tick3 ++ S))) =
          isTriplePre (x :: y :: z :: rest3) from rfl]
        exact hpre

theorem splitTriple_pos :
    ∀ (c S : List Char),
      (∀ i, i < c.length → isTriplePre (c.drop i ++ (tick3 ++ S)) = false) →
      splitTriple (c ++ (tick3 ++ S)) = some (c, S) := by
  intro c
  induction c with
  | nil =>
    intro S _
    show splitTriple (tick3 ++ S) = some ([], S)
    rw [show tick3 ++ S = tickChar :: (tickChar :: tickChar :: S) from rfl]
    unfold splitTriple
    rw [if_pos (by simp [isTriplePre])]
    rfl
  | cons a c ih =>
    intro S hall
    have h0 : isTriplePre (a :: (c ++ (tick3 ++ S))) = false := by
      have := hall 0 (by simp)
      simpa using this
    show splitTriple (a :: (c ++ (tick3 ++ S))) = some (a :: c, S)
    unfold splitTriple
    rw [if_neg (by rw [h0]; simp)]
    rw [ih S (fun i hi => by
      have := hall (i + 1) (by simp only [List.length_cons]; omega)
      simpa using this)]

theorem splitTriple_length :
    ∀ {x content after : List Char},
      splitTriple x = some (content, after) →
      x.length = content.length + 3 + after.length := by
  intro x
  induction x with
  | nil => intro content after h; simp [splitTriple] at h
  | cons c rest ih =>
    intro content after h
    unfold splitTriple at h
    split at h
    · rename_i htr
      simp only [Option.some.injEq, Prod.mk.injEq] at h
      obtain ⟨hc, ha⟩ := h
      subst hc
      subst ha
      cases rest with
      | nil => simp [isTriplePre] at htr
      | cons b rest2 =>
        cases rest2 with
        | nil => simp [isTriplePre] at htr
        | cons d rest3 => simp; omega
    · cases hs : splitTriple rest with
      | none => rw [hs] at h; simp at h
      | some pr =>
        rw [hs] at h
        simp only [Option.some.injEq, Prod.mk.injEq] at h
        obtain ⟨hc, ha⟩ := h
        have := ih hs
        subst hc
        subst ha
        simp only [List.length_cons]
        have h2 := ih (show splitTriple rest = some (pr.1, pr.2) from by
          rw [hs])
        simp only [List.length_cons] at h2 ⊢
        omega

theorem tryFence_none {cs : List Char} (h : isTriplePre cs = false) :
    tryFence cs = none := by
  match cs with
  | [] => rfl
  | [a] => rfl
  | [a, b] => rfl
  | a :: b :: c :: rest =>
    unfold tryFence
    dsimp only
    rw [if_neg]
    intro hcon
    have htrue : isTriplePre (a :: b :: c :: rest) = true := by
      rw [show isTriplePre (a :: b :: c :: rest) =
        (a = tickChar && b = tickChar && c = tickChar) from rfl]
      simp [hcon.1, hcon.2.1, hcon.2.2]
    rw [htrue] at h
    exact absurd h (by simp)

theorem tryFence_consumes :
    ∀ {cs content after : List Char}, tryFence cs = some (content, after) →
      after.length < cs.length := by
  intro cs content after h
  match cs with
  | [] => simp [tryFence] at h
  | [a] => simp [tryFence] at h
  | [a, b] => simp [tryFence] at h
  | a :: b :: c :: rest =>
    unfold tryFence at h
    dsimp only at h
    by_cases habc : a = tickChar ∧ b = tickChar ∧ c = tickChar
    · rw [if_pos habc] at h
      have hr1len : (rest.dropWhile wordChar).length ≤ rest.length :=
        length_dropWhile_le_q wordChar rest
      cases hm : rest.dropWhile wordChar with
      | nil =>
        rw [hm] at h
        simp [splitTriple] at h
      | cons nlc t =>
        rw [hm] at h
        dsimp only at h
        rw [hm] at hr1len
        simp only [List.length_cons] at hr1len
        by_cases hnl : nlc = '\n'
        · rw [if_pos hnl] at h
          have hsl := splitTriple_length h
          simp only [List.length_cons]
          omega
        · rw [if_neg hnl] at h
          have hsl := splitTriple_length h
          simp only [List.length_cons] at hsl ⊢
          omega
    · rw [if_neg habc] at h
      simp at h

theorem isTriplePre_false_of_head {x : Char} {rest : List Char}
    (h : ¬ x = tickChar) : isTriplePre (x :: rest) = false := by
  cases rest with
  | nil => rfl
  | cons y r2 =>
    cases r2 with
    | nil => rfl
    | cons z r3 => simp [isTriplePre, h]

theorem isTriplePre_false_of_second {x y : Char} {rest : List Char}
    (h : ¬ y = tickChar) : isTriplePre (x :: y :: rest) = false := by
  cases rest with
  | nil => rfl
  | cons z r3 => simp [isTriplePre, h]

theorem isTriplePre_false_of_third {x y z : Char} {rest : List Char}
    (h : ¬ z = tickChar) : isTriplePre (x :: y :: z :: rest) = false := by
  simp [isTriplePre, h]

theorem tryFence_match {tag c S : List Char}
    (htag : ∀ ch ∈ tag, wordChar ch = true)
    (hsplit : splitTriple (c ++ (tick3 ++ S)) = some (c, S)) :
    tryFence (tick3 ++ (tag ++ '\n' :: (c ++ (tick3 ++ S)))) = some (c, S) := by
  rw [show tick3 ++ (tag ++ '\n' :: (c ++ (tick3 ++ S))) =
    tickChar :: tickChar :: tickChar :: (tag ++ '\n' :: (c ++ (tick3 ++ S)))
    from rfl]
  unfold tryFence
  dsimp only
  rw [if_pos ⟨rfl, rfl, rfl⟩]
  obtain ⟨-, h2⟩ := @takeWhile_append_stop wordChar tag '\n'
    (c ++ (tick3 ++ S)) htag (by decide)
  rw [h2]
  dsimp only
  rw [if_pos rfl]
  exact hsplit

theorem subFenceAux_fuelIndep :
    ∀ (f1 : Nat) (cs : List Char) (i : Nat) (f2 : Nat), cs.length < f1 →
      cs.length < f2 → subFenceAux f1 cs i = subFenceAux f2 cs i := by
  intro f1
  induction f1 with
  | zero => intro cs i f2 h1 _; exact absurd h1 (by omega)
  | succ f ihf =>
    intro cs i f2 h1 h2
    cases f2 with
    | zero => exact absurd h2 (by omega)
    | succ g =>
      cases cs with
      | nil => rfl
      | cons ch rest =>
        simp only [List.length_cons] at h1 h2
        cases hm : tryFence (ch :: rest) with
        | some pr =>
          have hlt : pr.2.length < (ch :: rest).length := tryFence_consumes hm
          simp only [List.length_cons] at hlt
          simp only [subFenceAux, hm]
          rw [ihf pr.2 (i + 1) g (by omega) (by omega)]
        | none =>
          simp only [subFenceAux, hm]
          rw [ihf rest i g (by omega) (by omega)]

theorem subFenceAux_skip :
    ∀ (s r : List Char) (i : Nat),
      (∀ j, j < s.length → tryFence (s.drop j ++ r) = none) →
      subFenceAux ((s ++ r).length + 1) (s ++ r) i =
        (s ++ (subFenceAux (r.length + 1) r i).1,
          (subFenceAux (r.length + 1) r i).2) := by
  intro s
  induction s with
  | nil => intro r i _; simp
  | cons ch s ih =>
    intro r i hall
    have h0 : tryFence (ch :: (s ++ r)) = none := by
      have := hall 0 (by simp)
      simpa using this
    show subFenceAux (((ch :: s) ++ r).length + 1) ((ch :: s) ++ r) i = _
    simp only [List.cons_append, List.length_cons, subFenceAux,
      List.append_eq, h0]
    rw [ih r i (fun j hj => by
      have := hall (j + 1) (by simp only [List.length_cons]; omega)
      simpa using this)]

theorem subFenceAux_nomatch :
    ∀ (S : List Char) (fuel : Nat) (i : Nat), S.length < fuel →
      (∀ j, j < S.length → tryFence (S.drop j) = none) →
      subFenceAux fuel S i = (S, []) := by
  intro S
  induction S with
  | nil =>
    intro fuel i h _
    cases fuel with
    | zero => exact absurd h (by omega)
    | succ f => rfl
  | cons ch rest ih =>
    intro fuel i h hall
    cases fuel with
    | zero => exact absurd h (by omega)
    | succ f =>
      simp only [List.length_cons] at h
      have h0 : tryFence (ch :: rest) = none := by
        have := hall 0 (by simp)
        simpa using this
      simp only [subFenceAux, h0]
      rw [ih f i (by omega) (fun j hj => by
        have := hall (j + 1) (by simp only [List.length_cons]; omega)
        simpa using this)]

theorem no_triple_newline_block {P F : List Char} (hP : hasTriple P = false) :
    ∀ (j : Nat), j < (P ++ ['\n']).length →
      isTriplePre ((P ++ ['\n']).drop j ++ F) = false := by
  intro j hj
  simp only [List.length_append, List.length_cons, List.length_nil] at hj
  by_cases hjP : j < P.length
  · rw [List.drop_append_of_le_length (by omega), List.append_assoc]
    have hdrop : P.drop j ≠ [] := by
      intro hcon
      have := List.drop_eq_nil_iff.mp hcon
      omega
    cases hd : P.drop j with
    | nil => exact absurd hd hdrop
    | cons x d2 =>
      cases d2 with
      | nil => exact isTriplePre_false_of_second (by decide)
      | cons y d3 =>
        cases d3 with
        | nil => exact isTriplePre_false_of_third (by decide)
        | cons z d4 =>
          have hpre : isTriplePre (P.drop j) = false :=
            isTriplePre_drop_of_not_hasTriple P hP j
          rw [hd] at hpre
          rw [show (x :: y :: z :: d4) ++ (['\n'] ++ F) =
            x :: y :: z :: (d4 ++ (['\n'] ++ F)) from rfl]
          rw [show isTriplePre (x :: y :: z :: (d4 ++ (['\n'] ++ F))) =
            isTriplePre (x :: y :: z :: d4) from rfl]
          exact hpre
  · have hj1 : j = P.length := by omega
    rw [hj1, show (P ++ ['\n']) = P ++ ['\n'] from rfl, List.drop_left]
    exact isTriplePre_false_of_head (by decide)

/-- The fenced-code pass on a body with one properly fenced region: the region
is replaced by placeholder 0 and its formatted rendering is collected. -/
theorem subFence_structured {P tag c S : List Char}
    (hP : hasTriple P = false)
    (htag : ∀ ch ∈ tag, wordChar ch = true)
    (hc : hasTriple c = false) (hcl : c.getLast? ≠ some tickChar)
    (hS : hasTriple S = false) :
    subFence (P ++ '\n' :: (tick3 ++ (tag ++ '\n' :: (c ++ (tick3 ++ S))))) =
      (P ++ '\n' :: (placeholder 0 ++ S), [fmtCode c]) := by
  have hstep1 : P ++ '\n' :: (tick3 ++ (tag ++ '\n' :: (c ++ (tick3 ++ S)))) =
      (P ++ ['\n']) ++ (tick3 ++ (tag ++ '\n' :: (c ++ (tick3 ++ S)))) := by
    simp
  unfold subFence
  rw [hstep1]
  rw [subFenceAux_skip (P ++ ['\n']) _ 0 (fun j hj =>
    tryFence_none (no_triple_newline_block hP j hj))]
  have hsp : splitTriple (c ++ (tick3 ++ S)) = some (c, S) :=
    splitTriple_pos c S (no_triple_before_close hc hcl)
  have hf : tryFence (tickChar :: tickChar :: tickChar ::
      (tag ++ '\n' :: (c ++ (tick3 ++ S)))) = some (c, S) :=
    tryFence_match htag hsp
  rw [show tick3 ++ (tag ++ '\n' :: (c ++ (tick3 ++ S))) =
    tickChar :: (tickChar :: tickChar :: (tag ++ '\n' :: (c ++ (tick3 ++ S))))
    from rfl]
  simp only [List.length_cons, subFenceAux, hf]
  have hnm : subFenceAux ((tag ++ '\n' :: (c ++ (tick3 ++ S))).length + 1 + 1 + 1)
      S (0 + 1) = (S, []) := by
    apply subFenceAux_nomatch
    · simp [tick3]
      omega
    · intro j hj
      exact tryFence_none (isTriplePre_drop_of_not_hasTriple S hS j)
  rw [hnm]
  simp

theorem mdOfSegs_cons (seg : Seg) (segs : List Seg) :
    mdOfSegs (seg :: segs) = mdOfSeg seg ++ mdOfSegs segs := by
  simp [mdOfSegs]

theorem bold1Segs_cons (seg : Seg) (segs : List Seg) :
    bold1Segs (seg :: segs) = bold1Seg seg ++ bold1Segs segs := by
  simp [bold1Segs]

theorem icode2Segs_cons (seg : Seg) (segs : List Seg) :
    icode2Segs (seg :: segs) = icode2Seg seg ++ icode2Segs segs := by
  simp [icode2Segs]

theorem htmlOfSegs_cons (seg : Seg) (segs : List Seg) :
    htmlOfSegs (seg :: segs) = htmlOfSeg seg ++ htmlOfSegs segs := by
  simp [htmlOfSegs]

/-- The bold pass rewrites each well-formed segment in place: bold spans become
`strong` containers, everything else is untouched. -/
theorem scanS_bold_segs :
    ∀ (segs : List Seg) (r : List Char), wfSegs segs →
      scanS tryBold (mdOfSegs segs ++ r) = bold1Segs segs ++ scanS tryBold r := by
  intro segs
  induction segs with
  | nil => intro r _; simp [mdOfSegs, bold1Segs]
  | cons seg segs ih =>
    intro r hwf
    have hws : wfSeg seg := hwf seg (by simp)
    have hwrest : wfSegs segs := fun s hs => hwf s (by simp [hs])
    rw [mdOfSegs_cons, bold1Segs_cons, List.append_assoc, List.append_assoc]
    cases seg with
    | plain s =>
      obtain ⟨hstar, htick⟩ := hws
      show scanS tryBold (s ++ (mdOfSegs segs ++ r)) =
        s ++ (bold1Segs segs ++ scanS tryBold r)
      rw [scanS_skip_heads (fun ch hch cs =>
        tryBold_none (fun he => hstar (he ▸ hch)))]
      rw [ih _ hwrest]
    | bold w =>
      obtain ⟨hne, hstar, htick⟩ := hws
      show scanS tryBold (('*' :: '*' :: (w ++ ['*', '*'])) ++
        (mdOfSegs segs ++ r)) = (strongOpen ++ (w ++ strongClose)) ++
        (bold1Segs segs ++ scanS tryBold r)
      rw [show ('*' :: '*' :: (w ++ ['*', '*'])) ++ (mdOfSegs segs ++ r) =
        '*' :: '*' :: (w ++ '*' :: '*' :: (mdOfSegs segs ++ r)) from by simp]
      rw [scanS_step (fun cs r2 tl h => tryBold_consumes h)
        (tryBold_match hne hstar)]
      rw [ih _ hwrest]
      simp
    | icode w =>
      obtain ⟨hne, hstar, htick⟩ := hws
      show scanS tryBold ((tickChar :: (w ++ [tickChar])) ++
        (mdOfSegs segs ++ r)) = (tickChar :: (w ++ [tickChar])) ++
        (bold1Segs segs ++ scanS tryBold r)
      rw [scanS_skip_heads ?_, ih _ hwrest]
      intro ch hch cs
      apply tryBold_none
      intro he
      subst he
      rcases List.mem_cons.mp hch with h | h
      · exact absurd h.symm (by decide)
      · rcases List.mem_append.mp h with h | h
        · exact hstar h
        · have : ('*' : Char) = tickChar := by simpa using h
          exact absurd this (by decide)

/-- The inline-code pass rewrites each remaining backtick span into a `code`
container and touches nothing else. -/
theorem scanS_icode_segs :
    ∀ (segs : List Seg) (r : List Char), wfSegs segs →
      scanS tryICode (bold1Segs segs ++ r) =
        icode2Segs segs ++ scanS tryICode r := by
  intro segs
  induction segs with
  | nil => intro r _; simp [bold1Segs, icode2Segs]
  | cons seg segs ih =>
    intro r hwf
    have hws : wfSeg seg := hwf seg (by simp)
    have hwrest : wfSegs segs := fun s hs => hwf s (by simp [hs])
    rw [bold1Segs_cons, icode2Segs_cons, List.append_assoc, List.append_assoc]
    cases seg with
    | plain s =>
      obtain ⟨hstar, htick⟩ := hws
      show scanS tryICode (s ++ (bold1Segs segs ++ r)) =
        s ++ (icode2Segs segs ++ scanS tryICode r)
      rw [scanS_skip_heads (fun ch hch cs =>
        tryICode_none (fun he => htick (he ▸ hch)))]
      rw [ih _ hwrest]
    | bold w =>
      obtain ⟨hne, hstar, htick⟩ := hws
      show scanS tryICode ((strongOpen ++ (w ++ strongClose)) ++
        (bold1Segs segs ++ r)) = (strongOpen ++ (w ++ strongClose)) ++
        (icode2Segs segs ++ scanS tryICode r)
      rw [scanS_skip_heads ?_, ih _ hwrest]
      intro ch hch cs
      apply tryICode_none
      intro he
      subst he
      rcases List.mem_append.mp hch with h | h
      · exact absurd h (by decide)
      · rcases List.mem_append.mp h with h | h
        · exact htick h
        · exact absurd h (by decide)
    | icode w =>
      obtain ⟨hne, hstar, htick⟩ := hws
      show scanS tryICode ((tickChar :: (w ++ [tickChar])) ++
        (bold1Segs segs ++ r)) = (codeOpen ++ (w ++ codeClose)) ++
        (icode2Segs segs ++ scanS tryICode r)
      rw [show (tickChar :: (w ++ [tickChar])) ++ (bold1Segs segs ++ r) =
        tickChar :: (w ++ tickChar :: (bold1Segs segs ++ r)) from by simp]
      rw [scanS_step (fun cs r2 tl h => tryICode_consumes h)
        (tryICode_match hne htick)]
      rw [ih _ hwrest]
      simp

/-- The newline pass turns the post-rewrite rendering into the final HTML
rendering of each segment. -/
theorem expandNl_icode2 :
    ∀ (segs : List Seg), wfSegs segs →
      expandOn '\n' brStr (icode2Segs segs) = htmlOfSegs segs := by
  intro segs
  induction segs with
  | nil => intro _; rfl
  | cons seg segs ih =>
    intro hwf
    have hws : wfSeg seg := hwf seg (by simp)
    have hwrest : wfSegs segs := fun s hs => hwf s (by simp [hs])
    rw [icode2Segs_cons, htmlOfSegs_cons, expandOn_append, ih hwrest]
    cases seg with
    | plain s => rfl
    | bold w =>
      show expandOn '\n' brStr (strongOpen ++ (w ++ strongClose)) ++ _ = _
      rw [expandOn_append, expandOn_append,
        expandOn_of_not_mem (show ('\n' : Char) ∉ strongOpen from by decide),
        expandOn_of_not_mem (show ('\n' : Char) ∉ strongClose from by decide)]
      rfl
    | icode w =>
      show expandOn '\n' brStr (codeOpen ++ (w ++ codeClose)) ++ _ = _
      rw [expandOn_append, expandOn_append,
        expandOn_of_not_mem (show ('\n' : Char) ∉ codeOpen from by decide),
        expandOn_of_not_mem (show ('\n' : Char) ∉ codeClose from by decide)]
      rfl

/-- No character of the given kind occurs in the HTML rendering of well-formed
segments, provided it occurs in none of the fixed containers and in no segment
text. -/
theorem not_mem_htmlOfSegs {x : Char} (h1 : x ∉ strongOpen)
    (h2 : x ∉ strongClose) (h3 : x ∉ codeOpen) (h4 : x ∉ codeClose)
    (h5 : x ∉ brStr) :
    ∀ (segs : List Seg), wfSegs segs →
      (∀ seg ∈ segs, x ∉ segText seg) → x ∉ htmlOfSegs segs := by
  intro segs
  induction segs with
  | nil => intro _ _ h; simp [htmlOfSegs] at h
  | cons seg segs ih =>
    intro hwf htext hmem
    rw [htmlOfSegs_cons] at hmem
    have hwrest : wfSegs segs := fun s hs => hwf s (by simp [hs])
    rcases List.mem_append.mp hmem with h | h
    · cases seg with
      | plain s =>
        rcases mem_expandOn h with h | h
        · exact h5 h
        · exact htext (.plain s) (by simp) h
      | bold w =>
        rcases List.mem_append.mp h with h | h
        · exact h1 h
        · rcases List.mem_append.mp h with h | h
          · rcases mem_expandOn h with h | h
            · exact h5 h
            · exact htext (.bold w) (by simp) h
          · exact h2 h
      | icode w =>
        rcases List.mem_append.mp h with h | h
        · exact h3 h
        · rcases List.mem_append.mp h with h | h
          · rcases mem_expandOn h with h | h
            · exact h5 h
            · exact htext (.icode w) (by simp) h
          · exact h4 h
    · exact ih hwrest (fun s hs => htext s (by simp [hs])) h

theorem marker_free_html {x : Char} (h1 : x ∉ strongOpen)
    (h2 : x ∉ strongClose) (h3 : x ∉ codeOpen) (h4 : x ∉ codeClose)
    (h5 : x ∉ brStr) (hx : ∀ w, goodText w → x ∉ w) {segs : List Seg}
    (h : wfSegs segs) : x ∉ htmlOfSegs segs :=
  not_mem_htmlOfSegs h1 h2 h3 h4 h5 segs h (fun seg hs => by
    have hw := h seg hs
    cases seg with
    | plain s => exact hx s hw
    | bold w => exact hx w hw.2
    | icode w => exact hx w hw.2)

theorem scanS_bold_all (segs : List Seg) (h : wfSegs segs) :
    scanS tryBold (mdOfSegs segs) = bold1Segs segs := by
  have h1 := scanS_bold_segs segs [] h
  have h2 : scanS tryBold ([] : List Char) = [] := scanS_id_heads (by simp)
  rw [h2] at h1
  simpa using h1

theorem scanS_icode_all (segs : List Seg) (h : wfSegs segs) :
    scanS tryICode (bold1Segs segs) = icode2Segs segs := by
  have h1 := scanS_icode_segs segs [] h
  have h2 : scanS tryICode ([] : List Char) = [] := scanS_id_heads (by simp)
  rw [h2] at h1
  simpa using h1

theorem occursInB_false {p : List Char} :
    ∀ {s : List Char}, occursInB p s = false →
      ∀ i, ¬ p.isPrefixOf (s.drop i) = true := by
  intro s
  induction s with
  | nil =>
    intro h i
    simp only [occursInB] at h
    rw [List.drop_nil]
    simp [h]
  | cons c rest ih =>
    intro h i
    simp only [occursInB, Bool.or_eq_false_iff] at h
    obtain ⟨h1, h2⟩ := h
    cases i with
    | zero => simp [h1]
    | succ j =>
      rw [List.drop_succ_cons]
      exact ih h2 j

theorem tryRepl_none_of_not_prefix {pat rep cs : List Char}
    (h : ¬ pat.isPrefixOf cs = true) : tryRepl pat rep cs = none := by
  unfold tryRepl
  rw [if_neg]
  rintro ⟨-, hp⟩
  exact h hp

theorem prefix_cons_head {a b : Char} {l1 l2 : List Char}
    (h : (a :: l1) <+: (b :: l2)) : a = b := by
  obtain ⟨r, hr⟩ := h
  rw [List.cons_append] at hr
  injection hr with hh ht

/-- The restore pass finds no placeholder occurrence anywhere in the text to
the left of the real placeholder: not inside the rendered preceding markup
(hypothesis), not straddling into the `<br>` glue (the placeholder contains
no `<`), and not starting inside the glue (the placeholder starts with `_`). -/
theorem tryRepl_ph_none_left {Q R rep : List Char}
    (hph : occursInB (placeholder 0) Q = false) :
    ∀ i, i < (Q ++ brStr).length →
      tryRepl (placeholder 0) rep ((Q ++ brStr).drop i ++ R) = none := by
  intro i hi
  apply tryRepl_none_of_not_prefix
  intro hpre
  rw [List.isPrefixOf_iff_prefix] at hpre
  by_cases hiQ : i < Q.length
  · rw [List.drop_append_eq_append_drop,
      Nat.sub_eq_zero_of_le (le_of_lt hiQ), List.drop_zero,
      List.append_assoc] at hpre
    by_cases hk : (placeholder 0).length ≤ (Q.drop i).length
    · have h1 : placeholder 0 <+: Q.drop i :=
        List.prefix_of_prefix_length_le hpre (List.prefix_append _ _) hk
      exact occursInB_false hph i (List.isPrefixOf_iff_prefix.mpr h1)
    · push_neg at hk
      have hQp : Q.drop i <+: placeholder 0 :=
        List.prefix_of_prefix_length_le (List.prefix_append _ _) hpre
          (le_of_lt hk)
      obtain ⟨r1, hr1⟩ := hpre
      obtain ⟨r2, hr2⟩ := hQp
      rw [← hr2, List.append_assoc] at hr1
      have hbr : r2 ++ r1 = brStr ++ R := List.append_cancel_left hr1
      cases r2 with
      | nil =>
        have hlen := congrArg List.length hr2
        simp only [List.length_append, List.length_nil] at hlen
        omega
      | cons c r2t =>
        have hc : c = '<' := by
          have hbrL : brStr = '<' :: ['b', 'r', '>'] := by decide
          rw [hbrL, List.cons_append, List.cons_append] at hbr
          injection hbr with hh ht
        have hmem : ('<' : Char) ∈ placeholder 0 := by
          rw [← hr2, hc]
          simp
        exact absurd hmem (by decide)
  · push_neg at hiQ
    rw [List.drop_append_eq_append_drop, List.drop_eq_nil_of_le hiQ,
      List.nil_append] at hpre
    have hjlt : i - Q.length < brStr.length := by
      simp only [List.length_append] at hi
      omega
    rw [List.drop_eq_getElem_cons hjlt, List.cons_append] at hpre
    have hph0 : placeholder 0 = '_' :: List.drop 1 (placeholder 0) := by
      decide
    rw [hph0] at hpre
    have hall : ∀ k, (hk : k < brStr.length) → ¬ ('_' : Char) = brStr[k] := by
      decide
    exact hall _ hjlt (prefix_cons_head hpre)

/-- The restore pass finds no placeholder occurrence in the text to the right
of the replacement: not starting inside the `<br>` glue, and not inside the
rendered following markup (hypothesis). -/
theorem tryRepl_ph_none_right {Q rep : List Char}
    (hph : occursInB (placeholder 0) Q = false) :
    ∀ i, i < (brStr ++ Q).length →
      tryRepl (placeholder 0) rep ((brStr ++ Q).drop i) = none := by
  intro i hi
  apply tryRepl_none_of_not_prefix
  intro hpre
  rw [List.isPrefixOf_iff_prefix] at hpre
  by_cases hib : i < brStr.length
  · rw [List.drop_append_eq_append_drop,
      Nat.sub_eq_zero_of_le (le_of_lt hib), List.drop_zero,
      List.drop_eq_getElem_cons hib, List.cons_append] at hpre
    have hph0 : placeholder 0 = '_' :: List.drop 1 (placeholder 0) := by
      decide
    rw [hph0] at hpre
    have hall : ∀ k, (hk : k < brStr.length) → ¬ ('_' : Char) = brStr[k] := by
      decide
    exact hall _ hib (prefix_cons_head hpre)
  · push_neg at hib
    rw [List.drop_append_eq_append_drop, List.drop_eq_nil_of_le hib,
      List.nil_append] at hpre
    exact occursInB_false hph (i - brStr.length)
      (List.isPrefixOf_iff_prefix.mpr hpre)

theorem scanS_id_idx {t : List Char → Option (List Char × List Char)}
    {s : List Char} (h : ∀ i, i < s.length → t (s.drop i) = none) :
    scanS t s = s := by
  have h1 := scanS_skip s [] (fun i hi => by
    rw [List.append_nil]
    exact h i hi)
  rw [scanS_nil] at h1
  simpa using h1

/-- Claim C8 (amended): for a body made of well-formed (properly paired)
outside markup around one properly fenced code region, `format_question_text`
rewrites every outside `**`/backtick marker into its HTML container — the
outside parts of the output contain no `*` and no backtick at all — while
every literal `*` and backtick inside the fence is preserved: the formatted
code region has exactly the same `*` and backtick counts as the fence content.
Underscores and newlines in the outside text and inside the spans are
unrestricted; the only further provisos are structural: no triple-backtick
run outside or inside the fence, fence content not ending in a backtick (so
the closing delimiter is the literal one), and the rendered outside text not
containing the internal `__CODE_BLOCK_0__` placeholder token (else the
restore `str.replace` would also hit it). The original claim fails for
unpaired markers (see the counterexample): an unpaired `**` outside the fence
survives into the output, so proper pairing is a necessary assumption. -/
theorem claimC8_amended (pre post : List Seg) (tag content : List Char)
    (hwpre : wfSegs pre) (hwpost : wfSegs post)
    (htag : ∀ ch ∈ tag, wordChar ch = true)
    (hct : hasTriple content = false)
    (hcl : content.getLast? ≠ some tickChar)
    (hP : hasTriple (mdOfSegs pre) = false)
    (hS : hasTriple ('\n' :: mdOfSegs post) = false)
    (hopre : occursInB (placeholder 0) (htmlOfSegs pre) = false)
    (hopost : occursInB (placeholder 0) (htmlOfSegs post) = false) :
    formatQuestionText (fenceBody pre tag content post) =
      fenceHtml pre content post ∧
    countChar '*' (htmlOfSegs pre) = 0 ∧
    countChar tickChar (htmlOfSegs pre) = 0 ∧
    countChar '*' (htmlOfSegs post) = 0 ∧
    countChar tickChar (htmlOfSegs post) = 0 ∧
    countChar '*' (fmtCode content) = countChar '*' content ∧
    countChar tickChar (fmtCode content) = countChar tickChar content := by
  have hstarpre : '*' ∉ htmlOfSegs pre :=
    marker_free_html (by decide) (by decide) (by decide) (by decide)
      (by decide) (fun w hw => hw.1) hwpre
  have htickpre : tickChar ∉ htmlOfSegs pre :=
    marker_free_html (by decide) (by decide) (by decide) (by decide)
      (by decide) (fun w hw => hw.2) hwpre
  have hstarpost : '*' ∉ htmlOfSegs post :=
    marker_free_html (by decide) (by decide) (by decide) (by decide)
      (by decide) (fun w hw => hw.1) hwpost
  have htickpost : tickChar ∉ htmlOfSegs post :=
    marker_free_html (by decide) (by decide) (by decide) (by decide)
      (by decide) (fun w hw => hw.2) hwpost
  refine ⟨?_, countChar_eq_zero_of_not_mem hstarpre,
    countChar_eq_zero_of_not_mem htickpre,
    countChar_eq_zero_of_not_mem hstarpost,
    countChar_eq_zero_of_not_mem htickpost,
    countChar_fmtCode (by decide) (by decide) (by decide) (by decide)
      (by decide) (by decide) content,
    countChar_fmtCode (by decide) (by decide) (by decide) (by decide)
      (by decide) (by decide) content⟩
  have hbody : fenceBody pre tag content post =
      mdOfSegs pre ++ '\n' ::
        (tick3 ++ (tag ++ '\n' :: (content ++ (tick3 ++
          ('\n' :: mdOfSegs post))))) := by
    simp [fenceBody]
  rw [hbody]
  unfold formatQuestionText
  rw [subFence_structured hP htag hct hcl hS]
  show restoreBlocks (scanS (tryRepl nlStr brStr) (scanS tryICode
    (scanS tryBold (mdOfSegs pre ++ '\n' ::
      (placeholder 0 ++ ('\n' :: mdOfSegs post))))))
    [fmtCode content] 0 = fenceHtml pre content post
  have hmid : '\n' :: (placeholder 0 ++ ('\n' :: mdOfSegs post)) =
      ('\n' :: (placeholder 0 ++ ['\n'])) ++ mdOfSegs post := by simp
  have hmidstar : ('*' : Char) ∉ '\n' :: (placeholder 0 ++ ['\n']) := by
    decide
  have hmidtick : tickChar ∉ '\n' :: (placeholder 0 ++ ['\n']) := by decide
  rw [hmid, scanS_bold_segs pre _ hwpre,
    scanS_skip_heads (fun ch hch cs =>
      tryBold_none (fun he => hmidstar (he ▸ hch))),
    scanS_bold_all post hwpost,
    scanS_icode_segs pre _ hwpre,
    scanS_skip_heads (fun ch hch cs =>
      tryICode_none (fun he => hmidtick (he ▸ hch))),
    scanS_icode_all post hwpost,
    show (nlStr : List Char) = ['\n'] from rfl, scanS_single,
    expandOn_append, expandOn_append, expandNl_icode2 pre hwpre,
    expandNl_icode2 post hwpost,
    show expandOn '\n' brStr ('\n' :: (placeholder 0 ++ ['\n'])) =
      brStr ++ (placeholder 0 ++ brStr) from by decide]
  have hrb : restoreBlocks (htmlOfSegs pre ++
      ((brStr ++ (placeholder 0 ++ brStr)) ++ htmlOfSegs post))
      [fmtCode content] 0 =
      scanS (tryRepl (placeholder 0) (fmtCode content))
        (htmlOfSegs pre ++
          ((brStr ++ (placeholder 0 ++ brStr)) ++ htmlOfSegs post)) := rfl
  rw [hrb]
  have hre : htmlOfSegs pre ++
      ((brStr ++ (placeholder 0 ++ brStr)) ++ htmlOfSegs post) =
      (htmlOfSegs pre ++ brStr) ++
        (placeholder 0 ++ (brStr ++ htmlOfSegs post)) := by simp
  rw [hre]
  have hph0ne : placeholder 0 ≠ [] := by decide
  rw [scanS_skip _ _ (tryRepl_ph_none_left hopre),
    scanS_step (fun cs r tl h => tryRepl_consumes hph0ne h)
      (tryRepl_match hph0ne),
    scanS_id_idx (tryRepl_ph_none_right hopost)]
  simp [fenceHtml]

/-- Witness for the amended C8 at a concrete body exercising the full domain:
a bold span containing a newline and plain text containing an underscore
before a python-tagged fence whose content is `x = a*b / print(x)`, and an
underscore-bearing inline-code span plus underscore-bearing plain text after
it. -/
theorem claimC8_witness :
    wfSegs c8wPre ∧ wfSegs c8wPost ∧
    (formatQuestionText
        (fenceBody c8wPre c8wTagS.toList c8wContentS.toList c8wPost) =
        fenceHtml c8wPre c8wContentS.toList c8wPost ∧
      countChar '*' (htmlOfSegs c8wPre) = 0 ∧
      countChar tickChar (htmlOfSegs c8wPre) = 0 ∧
      countChar '*' (htmlOfSegs c8wPost) = 0 ∧
      countChar tickChar (htmlOfSegs c8wPost) = 0 ∧
      countChar '*' (fmtCode c8wContentS.toList) =
        countChar '*' c8wContentS.toList ∧
      countChar tickChar (fmtCode c8wContentS.toList) =
        countChar tickChar c8wContentS.toList) :=
  ⟨by unfold wfSegs; decide, by unfold wfSegs; decide,
    claimC8_amended c8wPre c8wPost c8wTagS.toList c8wContentS.toList
      (by unfold wfSegs; decide) (by unfold wfSegs; decide) (by decide)
      (by decide) (by decide) (by decide) (by decide) (by decide)
      (by decide)⟩

end Quiz
